import Mathlib

/-!
Verification development for a heuristic shell-script static analyzer
(`parse_script.py`).  The analyzer recursively follows `source` inclusion
directives, classifies lines (conditional start / conditional end /
function definition / inclusion / plain statement), infers argument
markers for each function, and records call edges.

Modelling conventions:
* Python strings become `String`; the regex character classes `\w`, `\s`
  and case folding are modelled on their ASCII meaning (`Char.isAlphanum`,
  `Char.isWhitespace`, `Char.toLower`), which is exact for the inputs the
  analyzer is designed for.
* Lines are the result of `readlines` followed by `strip`, so a modelled
  line never contains a newline character.
* Python's `dict` (insertion ordered) becomes an association list with
  in-place update; Python's `set` of function names has an unspecified
  iteration order, modelled here as first-insertion order followed by
  duplicate removal.
* The recursion of `analyze_file` is modelled with explicit fuel; running
  out of fuel is an observable outcome (`outOfFuel`), and we prove that
  fuel bounded by the number of filesystem entries plus one never runs
  out, which is the termination argument of the original program.
* Exceptions escaping the engine are the observable outcome `raised`.
-/

/-- Models the regex class `\w` (word character, ASCII reading). -/
def isWordChar (c : Char) : Bool := c.isAlphanum || c = '_'

/-- Models the regex class `\s` and the class stripped by Python's
`str.strip()`: space, tab, newline, carriage return, vertical tab and
form feed. -/
def isSpaceChar (c : Char) : Bool :=
  c = ' ' || c = '\t' || c = '\n' || c = '\r' ||
  c = Char.ofNat 11 || c = Char.ofNat 12

/-- Models Python's `str.strip()`: drop the whitespace characters from
both ends. -/
def pyStrip (s : String) : String :=
  (((s.data.dropWhile isSpaceChar).reverse.dropWhile isSpaceChar).reverse).asString

/-- The backtick character (written via its code point). -/
def backtickChar : Char := Char.ofNat 96

/-- The double-quote character. -/
def dquoteChar : Char := Char.ofNat 34

/-- The single-quote character. -/
def squoteChar : Char := Char.ofNat 39

/-- Case-insensitive literal prefix test: does `l` start with the
(lower-case) literal `pat`, comparing case-insensitively?  Models a
leading literal under `re.IGNORECASE`. -/
def ciStarts (pat : List Char) (l : List Char) : Bool :=
  decide ((l.take pat.length).map Char.toLower = pat)

/-- Case-sensitive literal prefix test. -/
def csStarts (pat : List Char) (l : List Char) : Bool :=
  decide (l.take pat.length = pat)

/-- Models the tail regex `\s*;?\s*KW$` (case-insensitively), used for the
optional `then` / `do` suffix of `if` / `while` / `for` headers. -/
def tailKw (kw : List Char) (t : List Char) : Bool :=
  let t1 := t.dropWhile isSpaceChar
  let t2 := match t1 with
    | ';' :: r => r.dropWhile isSpaceChar
    | _ => t1
  decide (t2.map Char.toLower = kw)

/-- Lazy group of `^KW\s+(.+?)(?:\s*;?\s*ENDKW)?$`: the shortest nonempty
prefix of `body` whose remainder is empty or matches `\s*;?\s*ENDKW$`. -/
def lazySplit (endKw : List Char) (body : List Char) : Option (List Char) :=
  (List.range body.length).findSome? fun j =>
    let t := body.drop (j + 1)
    if t.isEmpty || tailKw endKw t then some (body.take (j + 1)) else none

/-- Models `^KW\s+` (case-insensitive) and returns the label text for
`^KW\s+(.+?)(?:\s*;?\s*ENDKW)?$`.  The all-whitespace-remainder corner
(regex backtracking gives up one whitespace character to the group) is
reproduced faithfully. -/
def headKwGroup (kw : List Char) (endKw : List Char) (l : List Char) :
    Option (List Char) :=
  if ciStarts kw l then
    let r := l.drop kw.length
    match r with
    | [] => none
    | c :: _ =>
      if isSpaceChar c then
        let body := r.dropWhile isSpaceChar
        match body with
        | [] => (r.getLast?).map fun a => [a]
        | _ :: _ => lazySplit endKw body
      else none
  else none

/-- The lazy group of `^case\s+(.+?)\s+in` once the leading whitespace
has been fixed: the shortest nonempty prefix of `body` whose remainder
is nonempty whitespace followed (case-insensitively) by `in`.  The `in`
can only sit at the end of that whitespace run, since `i` is not a
whitespace character. -/
def caseGroupAt (body : List Char) : Option (List Char) :=
  (List.range body.length).findSome? fun j =>
    let t := body.drop (j + 1)
    match t with
    | d :: _ =>
      if isSpaceChar d ∧ ciStarts ['i', 'n'] (t.dropWhile isSpaceChar)
      then some (body.take (j + 1)) else none
    | [] => none

/-- Models `^case\s+(.+?)\s+in` (case-insensitive, unanchored tail):
returns the matched group.  The first `\s+` is backtracked from the
whole leading whitespace run down to a single character — so the lazy
group may itself begin with whitespace, e.g. on `case   in` the match
consumes one space, the group is the second space, and the third
satisfies the second `\s+` — and for each choice the group is matched
lazily. -/
def caseGroup (l : List Char) : Option (List Char) :=
  if ciStarts ['c', 'a', 's', 'e'] l then
    let r := l.drop 4
    let ws := (r.takeWhile isSpaceChar).length
    (List.range ws).findSome? fun i => caseGroupAt (r.drop (ws - i))
  else none

/-- Models `^\s*\*?\)\s*$` on an already-trimmed line: the line is `)` or
`*)`. -/
def starBranch (l : List Char) : Bool :=
  decide (l = [')']) || decide (l = ['*', ')'])

/-- Models `^\s*[^)]*\)\s*$` on an already-trimmed line: the line ends in
`)` and contains no other `)`. -/
def parenBranch (l : List Char) : Bool :=
  match l.reverse with
  | ')' :: rest => decide (¬ ')' ∈ rest)
  | _ => false

/-- Source translation of `ShellScriptAnalyzer._detect_condition_start`:
tries the eight patterns in order and produces the conditional label. -/
def detectConditionStart (line : String) : Option String :=
  let l := line.data
  match headKwGroup ['i', 'f'] ['t', 'h', 'e', 'n'] l with
  | some g => some ("if: " ++ g.asString)
  | none =>
  match headKwGroup ['e', 'l', 'i', 'f'] ['t', 'h', 'e', 'n'] l with
  | some g => some ("elif: " ++ g.asString)
  | none =>
  if decide (l.map Char.toLower = ['e', 'l', 's', 'e']) then some "else"
  else
  match caseGroup l with
  | some g => some ("case: " ++ g.asString)
  | none =>
  match headKwGroup ['w', 'h', 'i', 'l', 'e'] ['d', 'o'] l with
  | some g => some ("while: " ++ g.asString)
  | none =>
  match headKwGroup ['f', 'o', 'r'] ['d', 'o'] l with
  | some g => some ("for: " ++ g.asString)
  | none =>
  if starBranch l then some ("case_branch: " ++ line)
  else if parenBranch l then some ("case_branch: " ++ line)
  else none

/-- Source translation of `ShellScriptAnalyzer._detect_condition_end`:
`^fi\s*$`, `^done\s*$`, `^esac\s*$`, `^\}\s*$` or a line starting with
`;;` (the Python code uses `re.match`, which anchors at the start). -/
def detectConditionEnd (line : String) : Bool :=
  let l := line.data
  let low := l.map Char.toLower
  decide (low = ['f', 'i']) || decide (low = ['d', 'o', 'n', 'e']) ||
  decide (low = ['e', 's', 'a', 'c']) || decide (l = ['}']) ||
  csStarts [';', ';'] l

/-- Source translation of the function-definition detection in
`analyze_file`: `^(\w+)\s*\(\s*\)\s*\{?` first, then
`^function\s+(\w+)\s*(\(\s*\))?\s*\{?`; returns the function name. -/
def detectFuncDef (line : String) : Option String :=
  let l := line.data
  let w := l.takeWhile isWordChar
  let p1 : Bool :=
    if w.isEmpty then false
    else
      match (l.drop w.length).dropWhile isSpaceChar with
      | '(' :: r2 =>
        match r2.dropWhile isSpaceChar with
        | ')' :: _ => true
        | _ => false
      | _ => false
  if p1 then some w.asString
  else
    if csStarts ['f', 'u', 'n', 'c', 't', 'i', 'o', 'n'] l then
      match l.drop 8 with
      | c :: _ =>
        if isSpaceChar c then
          let nm := (l.drop 8).dropWhile isSpaceChar |>.takeWhile isWordChar
          if nm.isEmpty then none else some nm.asString
        else none
      | [] => none
    else none

/-- Source translation of the inclusion detection in `analyze_file`:
`^\s*(?:source|\.|bash)\s+([^\s;|&]+)`; returns the raw path token. -/
def sourceKwTok (kw : List Char) (l : List Char) : Option String :=
  if csStarts kw l then
    match l.drop kw.length with
    | c :: _ =>
      if isSpaceChar c then
        let tok := (l.drop kw.length).dropWhile isSpaceChar
          |>.takeWhile fun c => !isSpaceChar c && !(c = ';') && !(c = '|') && !(c = '&')
        if tok.isEmpty then none else some tok.asString
      else none
    | [] => none
  else none

/-- The inclusion pattern's three alternatives, tried in order. -/
def sourceMatch (line : String) : Option String :=
  let l := line.data.dropWhile isSpaceChar
  match sourceKwTok ['s', 'o', 'u', 'r', 'c', 'e'] l with
  | some t => some t
  | none =>
  match sourceKwTok ['.'] l with
  | some t => some t
  | none => sourceKwTok ['b', 'a', 's', 'h'] l

/-- Models Python's `str.strip('"\'')`: remove every leading and trailing
single or double quote. -/
def stripQuotes (s : String) : String :=
  let isQ : Char → Bool := fun c => c = dquoteChar || c = squoteChar
  (((s.data.dropWhile isQ).reverse.dropWhile isQ).reverse).asString

/-- Models `os.path.isabs` for POSIX paths. -/
def isAbsPath (s : String) : Bool :=
  match s.data with
  | '/' :: _ => true
  | _ => false

/-- Models `os.path.dirname` for POSIX paths: the part up to the last
`/`, with trailing slashes stripped unless the result is all slashes. -/
def dirnamePath (s : String) : String :=
  let r := s.data.reverse.dropWhile fun c => !(c = '/')
  if r.isEmpty then ""
  else if r.all (fun c => c = '/') then r.reverse.asString
  else ((r.dropWhile fun c => c = '/').reverse).asString

/-- Models `os.path.basename` for POSIX paths. -/
def basenamePath (s : String) : String :=
  ((s.data.reverse.takeWhile fun c => !(c = '/')).reverse).asString

/-- Models `os.path.join(d, f)` as used here (second argument relative). -/
def joinPath (d f : String) : String :=
  if d = "" then f
  else if d.data.getLast? = some '/' then d ++ f
  else d ++ "/" ++ f

/-- Source translation of `ShellScriptAnalyzer._resolve_path`. -/
def resolvePath (sourced_file current_file : String) : String :=
  if isAbsPath sourced_file then sourced_file
  else joinPath (dirnamePath current_file) sourced_file

/-- Number of occurrences of a character in a string (Python `str.count`). -/
def countChar (s : String) (c : Char) : Nat :=
  (s.data.filter fun d => d = c).length

/-- Models `re.findall(r'\$([1-9][0-9]*)', line)`, already prefixed with
`$` as the analyzer does: the positional-parameter markers of a line, in
textual order.  For this regex the non-overlapping scan of `findall` is
equivalent to collecting every position carrying `$` followed by a
nonzero digit with the greedy digit run, because a match span `$digits`
cannot contain the start `$` of another match. -/
def posMarkers (l : List Char) : List String :=
  (List.range l.length).filterMap fun i =>
    match l[i]?, l[i+1]? with
    | some '$', some d =>
      if '1' ≤ d ∧ d ≤ '9' then
        some ("$" ++ (d :: ((l.drop (i+2)).takeWhile Char.isDigit)).asString)
      else none
    | _, _ => none

/-- Models `re.search(r'\$[@*#]', line)`. -/
def hasVariadic : List Char → Bool
  | [] => false
  | c1 :: rest =>
    (c1 = '$' && (match rest.head? with
      | some c2 => c2 = '@' || c2 = '*' || c2 = '#'
      | none => false)) || hasVariadic rest

/-- Lexicographic comparison of character lists by code point — the
order Python's `sorted` uses on strings. -/
def leListChar : List Char → List Char → Bool
  | [], _ => true
  | _ :: _, [] => false
  | x :: xs, y :: ys =>
    if x < y then true
    else if y < x then false
    else leListChar xs ys

/-- The comparison on strings induced by `leListChar`. -/
def strLe (a b : String) : Prop := leListChar a.data b.data = true

instance : DecidableRel strLe := fun a b => by
  unfold strLe
  infer_instance

/-- Python's `sorted` on a list of distinct strings, modelled as an
insertion sort under the code-point lexicographic order. -/
def strSort (l : List String) : List String :=
  List.insertionSort strLe l

/-- The loop body of `ShellScriptAnalyzer._extract_args`: walk the index
window keeping a running brace balance; once past the definition line, a
balance of zero or below stops the scan before that line's markers are
collected; otherwise collect positional markers and a variadic marker. -/
def extractArgsLoop (lines : List String) (d : Nat) :
    List Nat → Int → List String → List String
  | [], _, args => args
  | i :: rest, bc, args =>
    let line := pyStrip (lines.getD i "")
    let bc' := bc + (countChar line '{' : Int) - (countChar line '}' : Int)
    if d < i ∧ bc' ≤ 0 then args
    else
      let args1 := args ++ posMarkers line.data
      let args2 := if hasVariadic line.data then args1 ++ ["$@"] else args1
      extractArgsLoop lines d rest bc' args2

/-- Source translation of `ShellScriptAnalyzer._extract_args`
(`func_line_num` is 1-based; the window is the definition line plus at
most 50 subsequent lines; the result is the sorted list of the distinct
collected markers). -/
def extract_args (lines : List String) (func_line_num : Nat) : List String :=
  let d := func_line_num - 1
  let idxs := (List.range (min (func_line_num + 50) lines.length)).drop d
  strSort (extractArgsLoop lines d idxs 0 []).dedup

/-- Does `pat` occur in `l` at position `i`? -/
def takeEq (l : List Char) (i : Nat) (pat : List Char) : Bool :=
  decide ((l.drop i).take pat.length = pat)

/-- The last character, if any, is not a word character (used for the
word boundary to the left of a name made of word characters). -/
def lastNonWord (l : List Char) : Bool :=
  match l.getLast? with
  | none => true
  | some c => !isWordChar c

/-- The first character, if any, is not a word character (word boundary
to the right of a name made of word characters). -/
def headNonWord (l : List Char) : Bool :=
  match l.head? with
  | none => true
  | some c => !isWordChar c

/-- Negative lookahead `(?!\s*\()`. -/
def noParenLookahead (l : List Char) : Bool :=
  match l.dropWhile isSpaceChar with
  | c :: _ => !(c = '(')
  | [] => true

/-- Call pattern (a): `\bF\b(?!\s*\()` for a name `F` made of word
characters. -/
def matchSimpleWord (F : List Char) (l : List Char) : Bool :=
  (List.range (l.length + 1)).any fun i =>
    takeEq l i F && lastNonWord (l.take i) &&
    headNonWord (l.drop (i + F.length)) && noParenLookahead (l.drop (i + F.length))

/-- Call pattern (b): `F\s*\([^)]*\)`. -/
def matchParenCall (F : List Char) (l : List Char) : Bool :=
  (List.range (l.length + 1)).any fun i =>
    takeEq l i F &&
    (match (l.drop (i + F.length)).dropWhile isSpaceChar with
     | '(' :: r2 => r2.any fun c => c = ')'
     | _ => false)

/-- Call pattern (c): `\$\(\s*F\b`. -/
def matchDollarSub (F : List Char) (l : List Char) : Bool :=
  (List.range (l.length + 1)).any fun i =>
    decide (l[i]? = some '$') && decide (l[i+1]? = some '(') &&
    (let r := (l.drop (i + 2)).dropWhile isSpaceChar
     csStarts F r && headNonWord (r.drop F.length))

/-- Call pattern (d): a backtick followed by `\s*F\b`. -/
def matchBacktickSub (F : List Char) (l : List Char) : Bool :=
  (List.range (l.length + 1)).any fun i =>
    decide (l[i]? = some backtickChar) &&
    (let r := (l.drop (i + 1)).dropWhile isSpaceChar
     csStarts F r && headNonWord (r.drop F.length))

/-- The four call-surface patterns of `_find_function_calls`, tried in
order; which one matches does not influence anything but the decision,
so the disjunction is the faithful summary. -/
def callMatch (F : String) (line : String) : Bool :=
  matchSimpleWord F.data line.data || matchParenCall F.data line.data ||
  matchDollarSub F.data line.data || matchBacktickSub F.data line.data

/-- The characters allowed inside the first argument-snippet capture
(`[^;|&<>\n`$()]`, with the backtick written via its code point). -/
def allowedArgChar (c : Char) : Bool :=
  !(c = ';' || c = '|' || c = '&' || c = '<' || c = '>' || c = '\n' ||
    c = backtickChar || c = '$' || c = '(' || c = ')')

/-- Leftmost match of `F\s+([^;|&<>\n`$()]*)`: the captured group. -/
def callArgsPlain (F l : List Char) : Option (List Char) :=
  (List.range (l.length + 1)).findSome? fun i =>
    if csStarts F (l.drop i) then
      match l.drop (i + F.length) with
      | c :: _ =>
        if isSpaceChar c then
          some (((l.drop (i + F.length)).dropWhile isSpaceChar).takeWhile allowedArgChar)
        else none
      | [] => none
    else none

/-- Leftmost match of `F\s*\(([^)]*)\)`: the captured group. -/
def callArgsParen (F l : List Char) : Option (List Char) :=
  (List.range (l.length + 1)).findSome? fun i =>
    if csStarts F (l.drop i) then
      match (l.drop (i + F.length)).dropWhile isSpaceChar with
      | '(' :: r2 =>
        if r2.any (fun c => c = ')') then some (r2.takeWhile fun c => !(c = ')'))
        else none
      | _ => none
    else none

/-- Source translation of `ShellScriptAnalyzer._extract_call_args`: try
the two capture patterns in order, strip the group, return the first
nonempty result truncated to 50 characters, else the empty string. -/
def extract_call_args (line func_name : String) : String :=
  let second : String :=
    match callArgsParen func_name.data line.data with
    | some g2 =>
      let s2 := pyStrip g2.asString
      if s2 = "" then "" else (s2.data.take 50).asString
    | none => ""
  match callArgsPlain func_name.data line.data with
  | some g =>
    let s := pyStrip g.asString
    if s = "" then second else (s.data.take 50).asString
  | none => second

/-- One observed call site (`call_info` in the source). -/
structure CallInfo where
  function : String
  args : String
  condition : Option String
deriving DecidableEq, Repr

/-- One function entry of the per-file registry. -/
structure FuncInfo where
  args : List String
  line : Nat
  calls : List CallInfo
deriving DecidableEq, Repr

/-- A per-file registry: insertion-ordered map, like a Python `dict`. -/
abbrev FuncMap := List (String × FuncInfo)

/-- The analyzer's mutable state: `self.functions`, `self.sources`,
`self.analyzed_files` (the set modelled as a duplicate-free list). -/
structure AnalyzerState where
  functions : List (String × FuncMap)
  sources : List (String × List String)
  analyzed_files : List String
deriving DecidableEq, Repr

/-- The empty analyzer (its `__init__`). -/
def initState : AnalyzerState := ⟨[], [], []⟩

/-- What a path resolves to on disk.  `utf8` and `sjisOnly` model the
primary and fallback decodings succeeding; `unreadable` models a
`UnicodeDecodeError` on the first read followed by any failure of the
retry (caught by the bare `except`); `openRaises` models a path that
passes the `os.path.exists` check but whose first `open`/read raises
something other than `UnicodeDecodeError` (file vanished in between, a
directory, permissions) — the code catches only `UnicodeDecodeError`
around the first read. -/
inductive FileData where
  | utf8 (lines : List String)
  | sjisOnly (lines : List String)
  | unreadable
  | openRaises
deriving DecidableEq, Repr

/-- The filesystem the analyzer runs against. -/
abbrev FileSystem := List (String × FileData)

/-- First-match lookup in an insertion-ordered map. -/
def getKey {α : Type} (m : List (String × α)) (k : String) : Option α :=
  match m with
  | [] => none
  | (k', v) :: rest => if k' = k then some v else getKey rest k

/-- Python-`dict` update: replace in place, else append at the end. -/
def setKey {α : Type} (m : List (String × α)) (k : String) (v : α) :
    List (String × α) :=
  match m with
  | [] => [(k, v)]
  | (k', v') :: rest => if k' = k then (k, v) :: rest else (k', v') :: setKey rest k v

/-- The fixed blocklist of common commands (`system_commands`). -/
def system_commands : List String :=
  ["echo", "printf", "read", "cd", "ls", "cp", "mv", "rm", "mkdir",
   "chmod", "chown", "grep", "sed", "awk", "cut", "sort", "uniq",
   "cat", "head", "tail", "find", "xargs", "test", "exit", "return",
   "export", "unset", "shift", "getopts", "trap", "kill", "wait"]

/-- The set of function names known across all files; Python iterates a
`set` here, whose order is unspecified — modelled deterministically. -/
def allFunctionNames (functions : List (String × FuncMap)) : List String :=
  ((functions.map fun p => p.2.map Prod.fst).flatten).dedup

/-- Append one call edge to the enclosing function's entry: the global
pseudo-entry (created on first use) when the enclosing name is the
`GLOBAL` sentinel, else the named entry; a missing named entry drops the
call silently. -/
def appendCall (st : AnalyzerState) (fp cfn : String) (c : CallInfo) :
    AnalyzerState :=
  if cfn = "GLOBAL" then
    let fm := (getKey st.functions fp).getD []
    let fm2 := match getKey fm "GLOBAL" with
      | none => fm ++ [("GLOBAL", ⟨[], 0, []⟩)]
      | some _ => fm
    match getKey fm2 "GLOBAL" with
    | none => st
    | some gi =>
      { st with functions :=
          setKey st.functions fp (setKey fm2 "GLOBAL" { gi with calls := gi.calls ++ [c] }) }
  else
    match getKey st.functions fp with
    | none => st
    | some fm =>
      match getKey fm cfn with
      | none => st
      | some fi =>
        { st with functions :=
            setKey st.functions fp (setKey fm cfn { fi with calls := fi.calls ++ [c] }) }

/-- The loop of `_find_function_calls` over the known names: skip
blocklisted names, and for a name matching one of the four patterns
record a call edge with the extracted snippet and the active label. -/
def findCallsAux (line cfn fp : String) (cond : Option String) :
    List String → AnalyzerState → AnalyzerState
  | [], st => st
  | F :: rest, st =>
    if F ∈ system_commands then findCallsAux line cfn fp cond rest st
    else if callMatch F line then
      findCallsAux line cfn fp cond rest
        (appendCall st fp cfn ⟨F, extract_call_args line F, cond⟩)
    else findCallsAux line cfn fp cond rest st

/-- Source translation of `ShellScriptAnalyzer._find_function_calls`. -/
def findFunctionCalls (line : String) (cfn : String) (fp : String)
    (cond : Option String) (st : AnalyzerState) : AnalyzerState :=
  findCallsAux line cfn fp cond (allFunctionNames st.functions) st

/-- Outcome of processing one line (or a run of lines): the loop state of
`analyze_file` — analyzer state, enclosing function, conditional depth
and label — or an abnormal outcome that propagates. -/
inductive LineResult where
  | outOfFuel
  | raised
  | stepDone (st : AnalyzerState) (cf : Option String) (depth : Int) (cond : Option String)
deriving DecidableEq, Repr

/-- Outcome of `analyze_file`: normal return, a propagating exception, or
exhausted recursion fuel. -/
inductive AnalyzeResult where
  | outOfFuel
  | raised
  | done (st : AnalyzerState)
deriving DecidableEq, Repr

/-- Forget the per-file loop state when `analyze_file` returns. -/
def toDone : LineResult → AnalyzeResult
  | .outOfFuel => .outOfFuel
  | .raised => .raised
  | .stepDone st _ _ _ => .done st

/-- The body of the `for line_num, line in enumerate(lines, 1)` loop of
`analyze_file`: strip, skip blank/comment lines, then try conditional
start, conditional end, function definition, inclusion directive (which
recurses via `recur` and does not consume the line), and finally the
call detector.  `recur` is the re-entry into `analyze_file`, passed as a
parameter so that the recursion is structural in the fuel. -/
def processLineWith (recur : AnalyzerState → String → AnalyzeResult)
    (st : AnalyzerState) (filepath : String) (allLines : List String)
    (line_num : Nat) (rawLine : String) (cf : Option String) (depth : Int)
    (cond : Option String) : LineResult :=
  let line := pyStrip rawLine
  if line = "" ∨ csStarts ['#'] line.data then .stepDone st cf depth cond
  else
    match detectConditionStart line with
    | some cs => .stepDone st cf (depth + 1) (some cs)
    | none =>
      if detectConditionEnd line then
        if depth - 1 ≤ 0 then .stepDone st cf 0 none
        else .stepDone st cf (depth - 1) cond
      else
        match detectFuncDef line with
        | some fn =>
          let fm := (getKey st.functions filepath).getD []
          let fm2 := setKey fm fn ⟨extract_args allLines line_num, line_num, []⟩
          let st1 := { st with functions := setKey st.functions filepath fm2 }
          .stepDone st1 (some fn) 0 none
        | none =>
          match sourceMatch line with
          | some tok =>
            let sf := resolvePath (stripQuotes tok) filepath
            let srcs := (getKey st.sources filepath).getD [] ++ [sf]
            let st1 := { st with sources := setKey st.sources filepath srcs }
            match recur st1 sf with
            | .outOfFuel => .outOfFuel
            | .raised => .raised
            | .done st2 =>
              .stepDone (findFunctionCalls line (cf.getD "GLOBAL") filepath cond st2)
                cf depth cond
          | none =>
            .stepDone (findFunctionCalls line (cf.getD "GLOBAL") filepath cond st)
              cf depth cond

/-- The line loop of `analyze_file` over the remaining lines. -/
def processLinesWith (recur : AnalyzerState → String → AnalyzeResult)
    (filepath : String) (allLines : List String) :
    AnalyzerState → List String → Nat → Option String → Int → Option String →
    LineResult
  | st, [], _, cf, depth, cond => .stepDone st cf depth cond
  | st, l :: rem, line_num, cf, depth, cond =>
    match processLineWith recur st filepath allLines line_num l cf depth cond with
    | .stepDone st' cf' d' c' =>
      processLinesWith recur filepath allLines st' rem (line_num + 1) cf' d' c'
    | r => r

/-- Source translation of `ShellScriptAnalyzer.analyze_file`.  An already
analyzed or nonexistent path returns immediately; otherwise the path is
marked visited, its registry and inclusion entries initialized empty,
the file read (with the outcomes of `FileData`), and the lines scanned.
The unbounded Python recursion carries explicit fuel here (structural,
so that concrete runs compute); exhausting it is the observable outcome
`outOfFuel`. -/
def analyzeFile : Nat → FileSystem → AnalyzerState → String → AnalyzeResult
  | 0, _, _, _ => .outOfFuel
  | fuel + 1, fs, st, filepath =>
    if filepath ∈ st.analyzed_files ∨ getKey fs filepath = none then .done st
    else
      let st1 : AnalyzerState :=
        { functions := setKey st.functions filepath []
          sources := setKey st.sources filepath []
          analyzed_files := filepath :: st.analyzed_files }
      match getKey fs filepath with
      | some (.utf8 lines) =>
        toDone (processLinesWith (analyzeFile fuel fs) filepath lines st1 lines 1 none 0 none)
      | some (.sjisOnly lines) =>
        toDone (processLinesWith (analyzeFile fuel fs) filepath lines st1 lines 1 none 0 none)
      | some .unreadable => .done st1
      | some .openRaises => .raised
      | none => .done st1

/-- The loop body with the recursion instantiated at the given fuel. -/
def processLine (fuel : Nat) (fs : FileSystem) (st : AnalyzerState)
    (filepath : String) (allLines : List String) (line_num : Nat)
    (rawLine : String) (cf : Option String) (depth : Int)
    (cond : Option String) : LineResult :=
  processLineWith (analyzeFile fuel fs) st filepath allLines line_num rawLine
    cf depth cond

/-- The line loop with the recursion instantiated at the given fuel. -/
def processLines (fuel : Nat) (fs : FileSystem) (st : AnalyzerState)
    (filepath : String) (allLines : List String) (rem : List String)
    (line_num : Nat) (cf : Option String) (depth : Int)
    (cond : Option String) : LineResult :=
  processLinesWith (analyzeFile fuel fs) filepath allLines st rem line_num
    cf depth cond

/-- One rendered call line of `_build_map_tree`. -/
def renderCall (indent_str : String) (c : CallInfo) : String :=
  let call_args := if c.args = "" then "" else "(" ++ c.args ++ ")"
  let condition_info := match c.condition with
    | some cd => " [" ++ cd ++ "]"
    | none => ""
  indent_str ++ "    -> " ++ c.function ++ call_args ++ condition_info

/-- One function entry rendered by `_build_map_tree` (the `GLOBAL`
pseudo-entry only shows when it has recorded calls). -/
def renderEntry (indent_str : String) (p : String × FuncInfo) : List String :=
  if p.1 = "GLOBAL" then
    if p.2.calls.isEmpty then []
    else (indent_str ++ "  [GLOBAL_SCOPE]") :: p.2.calls.map (renderCall indent_str)
  else
    let args_str :=
      if p.2.args.isEmpty then ""
      else "(" ++ String.intercalate ", " p.2.args ++ ")"
    (indent_str ++ "  " ++ p.1 ++ args_str) :: p.2.calls.map (renderCall indent_str)

/-- Source translation of `ShellScriptAnalyzer._build_map_tree`. -/
def buildMapTree (fs : FileSystem) (st : AnalyzerState) (filepath : String)
    (indent : Nat) : List String :=
  let indent_str := String.join (List.replicate indent "  ")
  if filepath ∈ st.analyzed_files then
    (indent_str ++ basenamePath filepath) ::
    ((((getKey st.sources filepath).getD []).filter
        fun sourced => (getKey fs sourced).isSome).map
      fun sourced => indent_str ++ "  -> " ++ basenamePath sourced) ++
    ((((getKey st.functions filepath).getD []).map (renderEntry indent_str)).flatten)
  else []

/-- Outcome of `generate_map`. -/
inductive MapResult where
  | outOfFuel
  | raised
  | done (st : AnalyzerState) (lines : List String)
deriving DecidableEq, Repr

/-- Source translation of `ShellScriptAnalyzer.generate_map`: analyze the
root file, then render.  The fuel `fs.length + 1` is proved sufficient
below, matching the original unbounded recursion. -/
def generate_map (fs : FileSystem) (st : AnalyzerState) (root_file : String) :
    MapResult :=
  match analyzeFile (fs.length + 1) fs st root_file with
  | .outOfFuel => .outOfFuel
  | .raised => .raised
  | .done st' => .done st' (buildMapTree fs st' root_file 0)

/-! ### Association-list lemmas -/

theorem getKey_setKey_self {α : Type} (m : List (String × α)) (k : String) (v : α) :
    getKey (setKey m k v) k = some v := by
  induction m with
  | nil => simp [getKey, setKey]
  | cons p rest ih =>
    obtain ⟨k', v'⟩ := p
    by_cases h : k' = k
    · simp [getKey, setKey, h]
    · simp [getKey, setKey, h, ih]

theorem getKey_setKey_other {α : Type} (m : List (String × α)) (k k' : String)
    (v : α) (h : k' ≠ k) : getKey (setKey m k v) k' = getKey m k' := by
  have h2 : k ≠ k' := fun hh => h hh.symm
  induction m with
  | nil => simp [getKey, setKey, h2]
  | cons p rest ih =>
    obtain ⟨k0, v0⟩ := p
    by_cases h0 : k0 = k
    · subst h0
      simp [getKey, setKey, h2]
    · simp only [setKey, h0, if_false, getKey]
      by_cases h1 : k0 = k'
      · simp [h1]
      · simp [h1, ih]

/-- The registry entry of function `fn` in file `fp`. -/
def funcEntry (st : AnalyzerState) (fp fn : String) : Option FuncInfo :=
  match getKey st.functions fp with
  | none => none
  | some m => getKey m fn

/-- The recorded call edges of function `fn` in file `fp`. -/
def callsOf (st : AnalyzerState) (fp fn : String) : List CallInfo :=
  match funcEntry st fp fn with
  | none => []
  | some i => i.calls

theorem appendCall_analyzed (st : AnalyzerState) (fp cfn : String) (c : CallInfo) :
    (appendCall st fp cfn c).analyzed_files = st.analyzed_files := by
  unfold appendCall
  dsimp only
  repeat' split
  all_goals rfl

theorem appendCall_sources (st : AnalyzerState) (fp cfn : String) (c : CallInfo) :
    (appendCall st fp cfn c).sources = st.sources := by
  unfold appendCall
  dsimp only
  repeat' split
  all_goals rfl

theorem getKey_append_one_ne {α : Type} (l : List (String × α)) (k k' : String)
    (v : α) (h : k ≠ k') : getKey (l ++ [(k, v)]) k' = getKey l k' := by
  induction l with
  | nil => simp [getKey, h]
  | cons p rest ih =>
    obtain ⟨k0, v0⟩ := p
    by_cases h0 : k0 = k'
    · simp [getKey, h0]
    · simp [getKey, h0, ih]

theorem getKey_append_one_self {α : Type} (l : List (String × α)) (k : String)
    (v : α) (h : getKey l k = none) : getKey (l ++ [(k, v)]) k = some v := by
  induction l with
  | nil => simp [getKey]
  | cons p rest ih =>
    obtain ⟨k0, v0⟩ := p
    by_cases h0 : k0 = k
    · simp [getKey, h0] at h
    · simp [getKey, h0] at h ⊢
      exact ih h

theorem funcEntry_eq_getD (st : AnalyzerState) (fp fn : String) :
    funcEntry st fp fn = getKey ((getKey st.functions fp).getD []) fn := by
  unfold funcEntry
  rcases getKey st.functions fp with _ | m
  · simp [getKey]
  · simp

/-- Structural characterization of `appendCall`: either the call is
silently dropped (missing named entry), or exactly the entry `cfn` of
file `fp0` gets the edge appended, every other entry being untouched. -/
theorem appendCall_shape (st : AnalyzerState) (fp0 cfn : String) (c : CallInfo) :
    (appendCall st fp0 cfn c = st ∧ cfn ≠ "GLOBAL" ∧ funcEntry st fp0 cfn = none) ∨
    ∃ M : FuncMap,
      appendCall st fp0 cfn c = { st with functions := setKey st.functions fp0 M } ∧
      (∀ fn, fn ≠ cfn → getKey M fn = getKey ((getKey st.functions fp0).getD []) fn) ∧
      ∃ i, getKey M cfn = some i ∧ i.calls = callsOf st fp0 cfn ++ [c] := by
  by_cases hg : cfn = "GLOBAL"
  · subst hg
    right
    unfold appendCall
    rw [if_pos rfl]
    dsimp only
    rcases hfm : getKey ((getKey st.functions fp0).getD []) "GLOBAL" with _ | e
    · simp only [hfm]
      have hsome := getKey_append_one_self ((getKey st.functions fp0).getD [])
        "GLOBAL" (⟨[], 0, []⟩ : FuncInfo) hfm
      rw [hsome]
      dsimp only
      refine ⟨_, rfl, ?_, ?_⟩
      · intro fn hfn
        rw [getKey_setKey_other _ _ _ _ hfn]
        rw [getKey_append_one_ne _ _ _ _ fun he => hfn he.symm]
      · refine ⟨_, getKey_setKey_self _ _ _, ?_⟩
        simp [callsOf, funcEntry_eq_getD, hfm]
    · simp only [hfm]
      refine ⟨_, rfl, ?_, ?_⟩
      · intro fn hfn
        rw [getKey_setKey_other _ _ _ _ hfn]
      · refine ⟨_, getKey_setKey_self _ _ _, ?_⟩
        simp [callsOf, funcEntry_eq_getD, hfm]
  · unfold appendCall
    rw [if_neg hg]
    rcases hm : getKey st.functions fp0 with _ | m
    · left
      refine ⟨rfl, hg, ?_⟩
      unfold funcEntry
      rw [hm]
    · dsimp only
      rcases hfi : getKey m cfn with _ | fi
      · left
        refine ⟨rfl, hg, ?_⟩
        unfold funcEntry
        rw [hm]
        exact hfi
      · right
        dsimp only
        refine ⟨_, rfl, ?_, ?_⟩
        · intro fn hfn
          rw [getKey_setKey_other _ _ _ _ hfn]
          simp
        · refine ⟨_, getKey_setKey_self _ _ _, ?_⟩
          simp [callsOf, funcEntry_eq_getD, hm, hfi]

theorem funcEntry_appendCall_other (st : AnalyzerState) (fp0 cfn : String)
    (c : CallInfo) (fp fn : String) (h : ¬(fp = fp0 ∧ fn = cfn)) :
    funcEntry (appendCall st fp0 cfn c) fp fn = funcEntry st fp fn := by
  rcases appendCall_shape st fp0 cfn c with ⟨he, _, _⟩ | ⟨M, hM, hother, _⟩
  · rw [he]
  · rw [hM]
    by_cases hfp : fp = fp0
    · subst hfp
      have hfn : fn ≠ cfn := fun he2 => h ⟨rfl, he2⟩
      rw [funcEntry_eq_getD, funcEntry_eq_getD]
      show getKey ((getKey (setKey st.functions fp M) fp).getD []) fn = _
      rw [getKey_setKey_self]
      exact hother fn hfn
    · rw [funcEntry_eq_getD, funcEntry_eq_getD]
      show getKey ((getKey (setKey st.functions fp0 M) fp).getD []) fn = _
      rw [getKey_setKey_other _ _ _ _ hfp]

theorem callsOf_appendCall_other (st : AnalyzerState) (fp0 cfn : String)
    (c : CallInfo) (fp fn : String) (h : ¬(fp = fp0 ∧ fn = cfn)) :
    callsOf (appendCall st fp0 cfn c) fp fn = callsOf st fp fn := by
  unfold callsOf
  rw [funcEntry_appendCall_other st fp0 cfn c fp fn h]

theorem callsOf_appendCall_self (st : AnalyzerState) (fp0 cfn : String)
    (c : CallInfo) :
    callsOf (appendCall st fp0 cfn c) fp0 cfn = callsOf st fp0 cfn ∨
    callsOf (appendCall st fp0 cfn c) fp0 cfn = callsOf st fp0 cfn ++ [c] := by
  rcases appendCall_shape st fp0 cfn c with ⟨he, _, _⟩ | ⟨M, hM, _, i, hi, hcalls⟩
  · left
    rw [he]
  · right
    rw [hM]
    unfold callsOf
    rw [funcEntry_eq_getD]
    show (match getKey ((getKey (setKey st.functions fp0 M) fp0).getD []) cfn with
          | none => [] | some i => i.calls) = _
    rw [getKey_setKey_self]
    simp only [Option.getD_some, hi]
    exact hcalls

theorem callsOf_appendCall_hit (st : AnalyzerState) (fp0 cfn : String)
    (c : CallInfo) (hok : cfn = "GLOBAL" ∨ (funcEntry st fp0 cfn).isSome) :
    callsOf (appendCall st fp0 cfn c) fp0 cfn = callsOf st fp0 cfn ++ [c] := by
  rcases appendCall_shape st fp0 cfn c with ⟨_, hng, hnone⟩ | ⟨M, hM, _, i, hi, hcalls⟩
  · rcases hok with hok | hok
    · exact absurd hok hng
    · rw [hnone] at hok
      simp at hok
  · rw [hM]
    unfold callsOf
    rw [funcEntry_eq_getD]
    show (match getKey ((getKey (setKey st.functions fp0 M) fp0).getD []) cfn with
          | none => [] | some i => i.calls) = _
    rw [getKey_setKey_self]
    simp only [Option.getD_some, hi]
    exact hcalls

theorem funcEntry_appendCall_isSome (st : AnalyzerState) (fp0 cfn : String)
    (c : CallInfo) (fp fn : String) (h : (funcEntry st fp fn).isSome) :
    (funcEntry (appendCall st fp0 cfn c) fp fn).isSome := by
  by_cases ht : fp = fp0 ∧ fn = cfn
  · obtain ⟨h1, h2⟩ := ht
    subst h1
    subst h2
    rcases appendCall_shape st fp fn c with ⟨he, _, _⟩ | ⟨M, hM, _, i, hi, _⟩
    · rw [he]
      exact h
    · rw [hM, funcEntry_eq_getD]
      show (getKey ((getKey (setKey st.functions fp M) fp).getD []) fn).isSome
      rw [getKey_setKey_self]
      simp [hi]
  · rw [funcEntry_appendCall_other st fp0 cfn c fp fn ht]
    exact h

/-! ### Lemmas about the call-detector loop -/

theorem findCallsAux_analyzed (line cfn fp : String) (cond : Option String) :
    ∀ (names : List String) (st : AnalyzerState),
    (findCallsAux line cfn fp cond names st).analyzed_files = st.analyzed_files := by
  intro names
  induction names with
  | nil => intro st; rfl
  | cons F rest ih =>
    intro st
    unfold findCallsAux
    by_cases h1 : F ∈ system_commands
    · simp only [h1, if_true]
      exact ih st
    · simp only [h1, if_false]
      by_cases h2 : callMatch F line
      · simp only [h2, if_true]
        rw [ih]
        exact appendCall_analyzed st fp cfn _
      · simp only [h2, if_false]
        exact ih st

theorem findCallsAux_sources (line cfn fp : String) (cond : Option String) :
    ∀ (names : List String) (st : AnalyzerState),
    (findCallsAux line cfn fp cond names st).sources = st.sources := by
  intro names
  induction names with
  | nil => intro st; rfl
  | cons F rest ih =>
    intro st
    unfold findCallsAux
    by_cases h1 : F ∈ system_commands
    · simp only [h1, if_true]
      exact ih st
    · simp only [h1, if_false]
      by_cases h2 : callMatch F line
      · simp only [h2, if_true]
        rw [ih]
        exact appendCall_sources st fp cfn _
      · simp only [h2, if_false]
        exact ih st

theorem findCallsAux_calls_mono (line cfn fp : String) (cond : Option String)
    (x : CallInfo) (fp' fn : String) :
    ∀ (names : List String) (st : AnalyzerState),
    x ∈ callsOf st fp' fn →
    x ∈ callsOf (findCallsAux line cfn fp cond names st) fp' fn := by
  intro names
  induction names with
  | nil => intro st hx; exact hx
  | cons F rest ih =>
    intro st hx
    unfold findCallsAux
    by_cases h1 : F ∈ system_commands
    · simp only [h1, if_true]
      exact ih st hx
    · simp only [h1, if_false]
      by_cases h2 : callMatch F line
      · simp only [h2, if_true]
        refine ih _ ?_
        by_cases ht : fp' = fp ∧ fn = cfn
        · obtain ⟨e1, e2⟩ := ht
          subst e1
          subst e2
          rcases callsOf_appendCall_self st fp' fn _ with he | he
          · rw [he]; exact hx
          · rw [he]; exact List.mem_append_left _ hx
        · rw [callsOf_appendCall_other st fp cfn _ fp' fn ht]
          exact hx
      · simp only [h2, if_false]
        exact ih st hx

theorem findCallsAux_calls_sub (line cfn fp : String) (cond : Option String)
    (x : CallInfo) (fp' fn : String) :
    ∀ (names : List String) (st : AnalyzerState),
    x ∈ callsOf (findCallsAux line cfn fp cond names st) fp' fn →
    x ∈ callsOf st fp' fn ∨ x.condition = cond := by
  intro names
  induction names with
  | nil => intro st hx; exact Or.inl hx
  | cons F rest ih =>
    intro st hx
    unfold findCallsAux at hx
    by_cases h1 : F ∈ system_commands
    · rw [if_pos h1] at hx
      exact ih st hx
    · rw [if_neg h1] at hx
      by_cases h2 : callMatch F line
      · rw [if_pos h2] at hx
        rcases ih _ hx with hx2 | hx2
        · by_cases ht : fp' = fp ∧ fn = cfn
          · obtain ⟨e1, e2⟩ := ht
            subst e1
            subst e2
            rcases callsOf_appendCall_self st fp' fn _ with he | he
            · rw [he] at hx2
              exact Or.inl hx2
            · rw [he] at hx2
              rcases List.mem_append.mp hx2 with hx3 | hx3
              · exact Or.inl hx3
              · right
                rcases List.mem_singleton.mp hx3 with rfl
                rfl
          · rw [callsOf_appendCall_other st fp cfn _ fp' fn ht] at hx2
            exact Or.inl hx2
        · exact Or.inr hx2
      · rw [if_neg h2] at hx
        exact ih st hx

theorem findCallsAux_entry_isSome (line cfn fp : String) (cond : Option String)
    (fp' fn : String) :
    ∀ (names : List String) (st : AnalyzerState),
    (funcEntry st fp' fn).isSome →
    (funcEntry (findCallsAux line cfn fp cond names st) fp' fn).isSome := by
  intro names
  induction names with
  | nil => intro st h; exact h
  | cons F rest ih =>
    intro st h
    unfold findCallsAux
    by_cases h1 : F ∈ system_commands
    · simp only [h1, if_true]
      exact ih st h
    · simp only [h1, if_false]
      by_cases h2 : callMatch F line
      · simp only [h2, if_true]
        exact ih _ (funcEntry_appendCall_isSome st fp cfn _ fp' fn h)
      · simp only [h2, if_false]
        exact ih st h

theorem findCallsAux_hit (line cfn fp : String) (cond : Option String)
    (F : String) :
    ∀ (names : List String) (st : AnalyzerState),
    F ∈ names → F ∉ system_commands → callMatch F line = true →
    (cfn = "GLOBAL" ∨ (funcEntry st fp cfn).isSome) →
    (⟨F, extract_call_args line F, cond⟩ : CallInfo) ∈
      callsOf (findCallsAux line cfn fp cond names st) fp cfn := by
  intro names
  induction names with
  | nil => intro st hmem; exact absurd hmem (List.not_mem_nil F)
  | cons G rest ih =>
    intro st hmem hsys hcm hok
    unfold findCallsAux
    rcases List.mem_cons.mp hmem with rfl | hmem2
    · simp only [hsys, if_false]
      rw [if_pos hcm]
      refine findCallsAux_calls_mono line cfn fp cond _ fp cfn rest _ ?_
      rw [callsOf_appendCall_hit st fp cfn _ hok]
      exact List.mem_append_right _ (List.mem_singleton.mpr rfl)
    · by_cases h1 : G ∈ system_commands
      · simp only [h1, if_true]
        exact ih st hmem2 hsys hcm hok
      · simp only [h1, if_false]
        by_cases h2 : callMatch G line
        · simp only [h2, if_true]
          refine ih _ hmem2 hsys hcm ?_
          rcases hok with hok | hok
          · exact Or.inl hok
          · exact Or.inr (funcEntry_appendCall_isSome st fp cfn _ fp cfn hok)
        · simp only [h2, if_false]
          exact ih st hmem2 hsys hcm hok

theorem getKey_mem {α : Type} (l : List (String × α)) (k : String) (v : α)
    (h : getKey l k = some v) : (k, v) ∈ l := by
  induction l with
  | nil => simp [getKey] at h
  | cons p rest ih =>
    obtain ⟨k0, v0⟩ := p
    by_cases h0 : k0 = k
    · subst h0
      simp [getKey] at h
      simp [h]
    · simp [getKey, h0] at h
      exact List.mem_cons_of_mem _ (ih h)

theorem mem_allFunctionNames (functions : List (String × FuncMap))
    (fp fn : String) (m : FuncMap) (i : FuncInfo)
    (hm : getKey functions fp = some m) (hf : getKey m fn = some i) :
    fn ∈ allFunctionNames functions := by
  unfold allFunctionNames
  rw [List.mem_dedup, List.mem_flatten]
  refine ⟨m.map Prod.fst, ?_, ?_⟩
  · exact List.mem_map_of_mem _ (getKey_mem functions fp m hm)
  · exact List.mem_map_of_mem _ (getKey_mem m fn i hf)

/-! ### Evolution of the analyzer state across the scan -/

/-- What any step of the traversal does to `analyzed_files`: it only
grows, only by paths that exist on the filesystem, and duplicate-freeness
is preserved (the set semantics of `self.analyzed_files`). -/
def StepOk (fs : FileSystem) (st st' : AnalyzerState) : Prop :=
  st.analyzed_files ⊆ st'.analyzed_files ∧
  (∀ x ∈ st'.analyzed_files, x ∈ st.analyzed_files ∨ (getKey fs x).isSome) ∧
  (st.analyzed_files.Nodup → st'.analyzed_files.Nodup)

theorem StepOk.refl (fs : FileSystem) (st : AnalyzerState) : StepOk fs st st :=
  ⟨List.Subset.refl _, fun x hx => Or.inl hx, fun h => h⟩

theorem StepOk.trans {fs : FileSystem} {s1 s2 s3 : AnalyzerState}
    (h1 : StepOk fs s1 s2) (h2 : StepOk fs s2 s3) : StepOk fs s1 s3 := by
  refine ⟨h1.1.trans h2.1, ?_, fun h => h2.2.2 (h1.2.2 h)⟩
  intro x hx
  rcases h2.2.1 x hx with hx2 | hx2
  · exact h1.2.1 x hx2
  · exact Or.inr hx2

theorem StepOk.of_eq_analyzed {fs : FileSystem} {st st' : AnalyzerState}
    (h : st'.analyzed_files = st.analyzed_files) : StepOk fs st st' := by
  refine ⟨?_, ?_, ?_⟩ <;> rw [h]
  · exact List.Subset.refl _
  · exact fun x hx => Or.inl hx
  · exact fun hh => hh

/-- A plain statement line for the classifier: non-blank, not a comment,
and matching none of the conditional-start, conditional-end,
function-definition or inclusion patterns. -/
def PlainStmt (s : String) : Prop :=
  pyStrip s ≠ "" ∧ csStarts ['#'] (pyStrip s).data = false ∧
  detectConditionStart (pyStrip s) = none ∧ detectConditionEnd (pyStrip s) = false ∧
  detectFuncDef (pyStrip s) = none ∧ sourceMatch (pyStrip s) = none

instance (s : String) : Decidable (PlainStmt s) := by
  unfold PlainStmt
  infer_instance

def unvisitedCount (fs : FileSystem) (st : AnalyzerState) : Nat :=
  ((fs.map Prod.fst).filter fun q => decide (¬ q ∈ st.analyzed_files)).length

theorem filterLenLe {α : Type} (p q : α → Bool)
    (h : ∀ x, q x = true → p x = true) :
    ∀ l : List α, (l.filter q).length ≤ (l.filter p).length := by
  intro l
  induction l with
  | nil => simp
  | cons a rest ih =>
    by_cases hq : q a = true
    · rw [List.filter_cons_of_pos hq, List.filter_cons_of_pos (h a hq)]
      simpa using ih
    · rw [List.filter_cons_of_neg (by simpa using hq)]
      by_cases hp : p a = true
      · rw [List.filter_cons_of_pos hp]
        simp only [List.length_cons]
        omega
      · rw [List.filter_cons_of_neg (by simpa using hp)]
        exact ih

theorem filterNotMemConsLt (keys : List String) (an : List String) (p : String)
    (hk : p ∈ keys) (hp : ¬ p ∈ an) :
    (keys.filter fun q => decide (¬ q ∈ (p :: an))).length <
    (keys.filter fun q => decide (¬ q ∈ an)).length := by
  have hle : ∀ ks : List String,
      (ks.filter fun q => decide (¬ q ∈ (p :: an))).length ≤
      (ks.filter fun q => decide (¬ q ∈ an)).length := by
    intro ks
    refine filterLenLe _ _ ?_ ks
    intro x hx
    simp only [decide_eq_true_eq] at hx ⊢
    intro hmem
    exact hx (List.mem_cons_of_mem _ hmem)
  induction keys with
  | nil => exact absurd hk (List.not_mem_nil p)
  | cons k rest ih =>
    rcases List.mem_cons.mp hk with rfl | hk2
    · rw [List.filter_cons_of_neg (by simp), List.filter_cons_of_pos (by simpa using hp)]
      simp only [List.length_cons]
      exact Nat.lt_succ_of_le (hle rest)
    · have hlt := ih hk2
      by_cases hmem : k ∈ an
      · rw [List.filter_cons_of_neg (by simp [hmem]),
            List.filter_cons_of_neg (by simp [hmem])]
        exact hlt
      · by_cases hmem2 : k ∈ p :: an
        · rw [List.filter_cons_of_neg (by simp [hmem2]),
              List.filter_cons_of_pos (by simpa using hmem)]
          simp only [List.length_cons]
          omega
        · rw [List.filter_cons_of_pos (by simpa using hmem2),
              List.filter_cons_of_pos (by simpa using hmem)]
          simp only [List.length_cons]
          omega

theorem unvisitedCount_le (fs : FileSystem) (st : AnalyzerState) :
    unvisitedCount fs st ≤ fs.length := by
  unfold unvisitedCount
  calc ((fs.map Prod.fst).filter _).length ≤ (fs.map Prod.fst).length :=
        List.length_filter_le _ _
    _ = fs.length := List.length_map _ _

theorem unvisitedCount_antitone (fs : FileSystem) (st st' : AnalyzerState)
    (h : st.analyzed_files ⊆ st'.analyzed_files) :
    unvisitedCount fs st' ≤ unvisitedCount fs st := by
  unfold unvisitedCount
  refine filterLenLe _ _ ?_ _
  intro x hx
  simp only [decide_eq_true_eq] at hx ⊢
  intro hmem
  exact hx (h hmem)

theorem unvisitedCount_mark (fs : FileSystem) (st : AnalyzerState) (p : String)
    (hk : (getKey fs p).isSome) (hp : ¬ p ∈ st.analyzed_files)
    (st' : AnalyzerState) (h : st'.analyzed_files = p :: st.analyzed_files) :
    unvisitedCount fs st' < unvisitedCount fs st := by
  unfold unvisitedCount
  rw [h]
  refine filterNotMemConsLt _ _ _ ?_ hp
  rcases hg : getKey fs p with _ | d
  · rw [hg] at hk
    simp at hk
  · exact List.mem_map_of_mem _ (getKey_mem fs p d hg)

/-- On a plain statement line, the step just runs the Call Detector with
the enclosing name (or the `GLOBAL` sentinel) and the active label, and
leaves the loop state unchanged. -/
theorem processLineWith_plain (recur : AnalyzerState → String → AnalyzeResult)
    (st : AnalyzerState) (fp : String) (all : List String) (n : Nat)
    (s : String) (cf : Option String) (d : Int) (c : Option String)
    (h : PlainStmt s) :
    processLineWith recur st fp all n s cf d c =
      .stepDone (findFunctionCalls (pyStrip s) (cf.getD "GLOBAL") fp c st) cf d c := by
  obtain ⟨h1, h2, h3, h4, h5, h6⟩ := h
  unfold processLineWith
  have hb : ¬(pyStrip s = "" ∨ csStarts ['#'] (pyStrip s).data = true) := by
    simp [h1, h2]
  rw [if_neg hb]
  simp only [h3, h4, h5, h6]
  rfl

theorem processLineWith_stepOk_of (fs : FileSystem)
    (recur : AnalyzerState → String → AnalyzeResult)
    (hA : ∀ st p st', recur st p = .done st' → StepOk fs st st') :
    ∀ st fp all n s cf d c st' cf' d' c',
      processLineWith recur st fp all n s cf d c = .stepDone st' cf' d' c' →
      StepOk fs st st' := by
  intro st fp all n s cf d c st' cf' d' c' h
  unfold processLineWith at h
  dsimp only at h
  split at h
  · cases h
    exact StepOk.refl fs st
  · split at h
    · cases h
      exact StepOk.refl fs st
    · split at h
      · split at h <;> (cases h; exact StepOk.refl fs st)
      · split at h
        · cases h
          exact StepOk.of_eq_analyzed rfl
        · split at h
          · split at h
            · cases h
            · cases h
            · rename_i st2 hdone
              cases h
              have k2 := hA _ _ _ hdone
              have k3 : StepOk fs st2
                  (findFunctionCalls (pyStrip s) (cf.getD "GLOBAL") fp c st2) := by
                refine StepOk.of_eq_analyzed ?_
                unfold findFunctionCalls
                exact findCallsAux_analyzed _ _ _ _ _ _
              exact StepOk.trans ⟨k2.1, k2.2.1, k2.2.2⟩ k3
          · cases h
            refine StepOk.of_eq_analyzed ?_
            unfold findFunctionCalls
            exact findCallsAux_analyzed _ _ _ _ _ _

theorem processLinesWith_stepOk_of (fs : FileSystem)
    (recur : AnalyzerState → String → AnalyzeResult)
    (hL : ∀ st fp all n s cf d c st' cf' d' c',
      processLineWith recur st fp all n s cf d c = .stepDone st' cf' d' c' →
      StepOk fs st st') :
    ∀ st fp all rem n cf d c st' cf' d' c',
      processLinesWith recur fp all st rem n cf d c = .stepDone st' cf' d' c' →
      StepOk fs st st' := by
  intro st fp all rem
  induction rem generalizing st with
  | nil =>
    intro n cf d c st' cf' d' c' h
    unfold processLinesWith at h
    cases h
    exact StepOk.refl fs st
  | cons l rem' ih =>
    intro n cf d c st' cf' d' c' h
    unfold processLinesWith at h
    cases hstep : processLineWith recur st fp all n l cf d c with
    | outOfFuel =>
      rw [hstep] at h
      cases h
    | raised =>
      rw [hstep] at h
      cases h
    | stepDone st2 cf2 d2 c2 =>
      rw [hstep] at h
      exact (hL st fp all n l cf d c st2 cf2 d2 c2 hstep).trans
        (ih st2 (n+1) cf2 d2 c2 st' cf' d' c' h)

theorem analyzeFile_stepOk_of (fuel : Nat) (fs : FileSystem)
    (hA : ∀ st p st', analyzeFile fuel fs st p = .done st' → StepOk fs st st') :
    ∀ st p st', analyzeFile (fuel + 1) fs st p = .done st' → StepOk fs st st' := by
  have hS := processLinesWith_stepOk_of fs (analyzeFile fuel fs)
    (processLineWith_stepOk_of fs (analyzeFile fuel fs) hA)
  intro st p st' h
  unfold analyzeFile at h
  split at h
  · cases h
    exact StepOk.refl fs st
  · rename_i hguard
    rw [not_or] at hguard
    obtain ⟨hp, hex⟩ := hguard
    dsimp only at h
    have hst1 : ∀ st1 : AnalyzerState,
        st1.analyzed_files = p :: st.analyzed_files → StepOk fs st st1 := by
      intro st1 he
      refine ⟨?_, ?_, ?_⟩ <;> rw [he]
      · exact fun x hx => List.mem_cons_of_mem _ hx
      · intro x hx
        rcases List.mem_cons.mp hx with rfl | hx2
        · right
          rcases hgk : getKey fs x with _ | dd
          · exact absurd hgk hex
          · rfl
        · exact Or.inl hx2
      · intro hnd
        exact List.nodup_cons.mpr ⟨hp, hnd⟩
    split at h
    · rename_i lines hread
      cases hr : processLinesWith (analyzeFile fuel fs) p lines
          ⟨setKey st.functions p [], setKey st.sources p [],
            p :: st.analyzed_files⟩ lines 1 none 0 none with
      | outOfFuel => rw [hr] at h; cases h
      | raised => rw [hr] at h; cases h
      | stepDone st2 cf2 d2 c2 =>
        rw [hr] at h
        cases h
        exact (hst1 _ rfl).trans (hS _ p lines lines 1 none 0 none _ _ _ _ hr)
    · rename_i lines hread
      cases hr : processLinesWith (analyzeFile fuel fs) p lines
          ⟨setKey st.functions p [], setKey st.sources p [],
            p :: st.analyzed_files⟩ lines 1 none 0 none with
      | outOfFuel => rw [hr] at h; cases h
      | raised => rw [hr] at h; cases h
      | stepDone st2 cf2 d2 c2 =>
        rw [hr] at h
        cases h
        exact (hst1 _ rfl).trans (hS _ p lines lines 1 none 0 none _ _ _ _ hr)
    · cases h
      exact hst1 _ rfl
    · cases h
    · cases h
      exact hst1 _ rfl

theorem analyzeFile_stepOk : ∀ (fuel : Nat) (fs : FileSystem)
    (st : AnalyzerState) (p : String) (st' : AnalyzerState),
    analyzeFile fuel fs st p = .done st' → StepOk fs st st' := by
  intro fuel
  induction fuel with
  | zero =>
    intro fs st p st' h
    unfold analyzeFile at h
    cases h
  | succ n ih =>
    intro fs
    exact analyzeFile_stepOk_of n fs (ih fs)

theorem processLineWith_stepOk (fuel : Nat) (fs : FileSystem) :
    ∀ st fp all n s cf d c st' cf' d' c',
      processLineWith (analyzeFile fuel fs) st fp all n s cf d c =
        .stepDone st' cf' d' c' →
      StepOk fs st st' :=
  processLineWith_stepOk_of fs (analyzeFile fuel fs)
    (fun st p st' h => analyzeFile_stepOk fuel fs st p st' h)

theorem processLineWith_suff_of (fs : FileSystem)
    (recur : AnalyzerState → String → AnalyzeResult) (B : Nat)
    (hA : ∀ st p, unvisitedCount fs st < B → recur st p ≠ .outOfFuel) :
    ∀ st fp all n s cf d c, unvisitedCount fs st < B →
      processLineWith recur st fp all n s cf d c ≠ .outOfFuel := by
  intro st fp all n s cf d c hu h
  unfold processLineWith at h
  dsimp only at h
  split at h
  · cases h
  · split at h
    · cases h
    · split at h
      · split at h <;> cases h
      · split at h
        · cases h
        · split at h
          · split at h
            · rename_i hres
              exact absurd hres (hA _ _ hu)
            · cases h
            · cases h
          · cases h

theorem processLinesWith_suff_of (fs : FileSystem)
    (recur : AnalyzerState → String → AnalyzeResult) (B : Nat)
    (hL : ∀ st fp all n s cf d c, unvisitedCount fs st < B →
      processLineWith recur st fp all n s cf d c ≠ .outOfFuel)
    (hStep : ∀ st fp all n s cf d c st' cf' d' c',
      processLineWith recur st fp all n s cf d c = .stepDone st' cf' d' c' →
      StepOk fs st st') :
    ∀ st fp all rem n cf d c, unvisitedCount fs st < B →
      processLinesWith recur fp all st rem n cf d c ≠ .outOfFuel := by
  intro st fp all rem
  induction rem generalizing st with
  | nil =>
    intro n cf d c hu h
    unfold processLinesWith at h
    cases h
  | cons l rem' ih =>
    intro n cf d c hu h
    unfold processLinesWith at h
    cases hstep : processLineWith recur st fp all n l cf d c with
    | outOfFuel => exact absurd hstep (hL st fp all n l cf d c hu)
    | raised =>
      rw [hstep] at h
      cases h
    | stepDone st2 cf2 d2 c2 =>
      rw [hstep] at h
      have hst := hStep st fp all n l cf d c _ _ _ _ hstep
      have hu2 : unvisitedCount fs st2 < B :=
        lt_of_le_of_lt (unvisitedCount_antitone fs st st2 hst.1) hu
      exact ih st2 (n+1) cf2 d2 c2 hu2 h

theorem analyzeFile_suff : ∀ (fuel : Nat) (fs : FileSystem) (st : AnalyzerState)
    (p : String), unvisitedCount fs st < fuel →
    analyzeFile fuel fs st p ≠ .outOfFuel := by
  intro fuel
  induction fuel with
  | zero =>
    intro fs st p hu
    exact absurd hu (Nat.not_lt_zero _)
  | succ n ih =>
    intro fs
    have hS := processLinesWith_suff_of fs (analyzeFile n fs) n
      (processLineWith_suff_of fs (analyzeFile n fs) n (fun st p hu => ih fs st p hu))
      (processLineWith_stepOk n fs)
    intro st p hu h
    unfold analyzeFile at h
    split at h
    · cases h
    · rename_i hguard
      rw [not_or] at hguard
      obtain ⟨hp, hex⟩ := hguard
      dsimp only at h
      have hsome : (getKey fs p).isSome := by
        rcases hgk : getKey fs p with _ | dd
        · exact absurd hgk hex
        · rfl
      split at h
      · rename_i lines hread
        cases hr : processLinesWith (analyzeFile n fs) p lines
            ⟨setKey st.functions p [], setKey st.sources p [],
              p :: st.analyzed_files⟩ lines 1 none 0 none with
        | outOfFuel =>
          refine absurd hr (hS _ p lines lines 1 none 0 none ?_)
          have hlt := unvisitedCount_mark fs st p hsome hp
            ⟨setKey st.functions p [], setKey st.sources p [],
              p :: st.analyzed_files⟩ rfl
          omega
        | raised =>
          rw [hr] at h
          cases h
        | stepDone st2 cf2 d2 c2 =>
          rw [hr] at h
          cases h
      · rename_i lines hread
        cases hr : processLinesWith (analyzeFile n fs) p lines
            ⟨setKey st.functions p [], setKey st.sources p [],
              p :: st.analyzed_files⟩ lines 1 none 0 none with
        | outOfFuel =>
          refine absurd hr (hS _ p lines lines 1 none 0 none ?_)
          have hlt := unvisitedCount_mark fs st p hsome hp
            ⟨setKey st.functions p [], setKey st.sources p [],
              p :: st.analyzed_files⟩ rfl
          omega
        | raised =>
          rw [hr] at h
          cases h
        | stepDone st2 cf2 d2 c2 =>
          rw [hr] at h
          cases h
      · cases h
      · cases h
      · cases h

theorem processLineWith_noraise_of (fs : FileSystem)
    (recur : AnalyzerState → String → AnalyzeResult)
    (hA : ∀ st p, recur st p ≠ .raised) :
    ∀ st fp all n s cf d c, processLineWith recur st fp all n s cf d c ≠ .raised := by
  intro st fp all n s cf d c h
  unfold processLineWith at h
  dsimp only at h
  split at h
  · cases h
  · split at h
    · cases h
    · split at h
      · split at h <;> cases h
      · split at h
        · cases h
        · split at h
          · split at h
            · cases h
            · rename_i hres
              exact absurd hres (hA _ _)
            · cases h
          · cases h

theorem processLinesWith_noraise_of (fs : FileSystem)
    (recur : AnalyzerState → String → AnalyzeResult)
    (hL : ∀ st fp all n s cf d c,
      processLineWith recur st fp all n s cf d c ≠ .raised) :
    ∀ st fp all rem n cf d c,
      processLinesWith recur fp all st rem n cf d c ≠ .raised := by
  intro st fp all rem
  induction rem generalizing st with
  | nil =>
    intro n cf d c h
    unfold processLinesWith at h
    cases h
  | cons l rem' ih =>
    intro n cf d c h
    unfold processLinesWith at h
    cases hstep : processLineWith recur st fp all n l cf d c with
    | outOfFuel =>
      rw [hstep] at h
      cases h
    | raised => exact absurd hstep (hL st fp all n l cf d c)
    | stepDone st2 cf2 d2 c2 =>
      rw [hstep] at h
      exact ih st2 (n+1) cf2 d2 c2 h

theorem analyzeFile_noraise (fs : FileSystem)
    (hfs : ∀ p, ¬ (p, FileData.openRaises) ∈ fs) :
    ∀ (fuel : Nat) (st : AnalyzerState) (p : String),
      analyzeFile fuel fs st p ≠ .raised := by
  intro fuel
  induction fuel with
  | zero =>
    intro st p h
    unfold analyzeFile at h
    cases h
  | succ n ih =>
    have hS := processLinesWith_noraise_of fs (analyzeFile n fs)
      (processLineWith_noraise_of fs (analyzeFile n fs) ih)
    intro st p h
    unfold analyzeFile at h
    split at h
    · cases h
    · dsimp only at h
      split at h
      · rename_i lines hread
        cases hr : processLinesWith (analyzeFile n fs) p lines
            ⟨setKey st.functions p [], setKey st.sources p [],
              p :: st.analyzed_files⟩ lines 1 none 0 none with
        | outOfFuel =>
          rw [hr] at h
          cases h
        | raised => exact absurd hr (hS _ p lines lines 1 none 0 none)
        | stepDone st2 cf2 d2 c2 =>
          rw [hr] at h
          cases h
      · rename_i lines hread
        cases hr : processLinesWith (analyzeFile n fs) p lines
            ⟨setKey st.functions p [], setKey st.sources p [],
              p :: st.analyzed_files⟩ lines 1 none 0 none with
        | outOfFuel =>
          rw [hr] at h
          cases h
        | raised => exact absurd hr (hS _ p lines lines 1 none 0 none)
        | stepDone st2 cf2 d2 c2 =>
          rw [hr] at h
          cases h
      · cases h
      · rename_i hread
        exact absurd (getKey_mem fs p _ hread) (hfs p)
      · cases h

/-! ### The claims -/

/-- Claim C5: for every finite filesystem and every root file the
recursive analysis terminates — fuel bounded by the number of filesystem
entries plus one never runs out, which is exactly the bound the
`analyzed_files` deduplication enforces on the recursion depth — and the
set of analyzed files stays duplicate-free (each file is loaded and
scanned at most once), including when the inclusion graph contains
cycles. -/
theorem c5_termination_and_dedup (fs : FileSystem) (st : AnalyzerState)
    (root : String) (hnd : st.analyzed_files.Nodup) :
    analyzeFile (fs.length + 1) fs st root ≠ .outOfFuel ∧
    ∀ st', analyzeFile (fs.length + 1) fs st root = .done st' →
      st'.analyzed_files.Nodup := by
  constructor
  · refine analyzeFile_suff (fs.length + 1) fs st root ?_
    have h := unvisitedCount_le fs st
    omega
  · intro st' h
    exact (analyzeFile_stepOk (fs.length + 1) fs st root st' h).2.2 hnd

/-- Two files that source each other: the inclusion cycle of C5. -/
def cycFS : FileSystem :=
  [("a.sh", .utf8 ["source b.sh"]), ("b.sh", .utf8 ["source a.sh"])]

/-- Witness for C5 on the mutual-inclusion cycle. -/
theorem c5_termination_and_dedup_witness :
    analyzeFile (cycFS.length + 1) cycFS initState "a.sh" ≠ .outOfFuel ∧
    ∀ st', analyzeFile (cycFS.length + 1) cycFS initState "a.sh" = .done st' →
      st'.analyzed_files.Nodup :=
  c5_termination_and_dedup cycFS initState "a.sh" (by decide)

/-- Claim C4: the conditional context satisfies the invariant — depth is
nonnegative and the label is present iff the depth is positive — and the
invariant is preserved by every line-classification step; moreover a
line that reaches the function-definition check and matches it resets
the context to `(0, absent)`. -/
theorem c4_conditional_context_invariant
    (fuel : Nat) (fs : FileSystem) (st : AnalyzerState) (fp : String)
    (all : List String) (n : Nat) (s : String) (cf : Option String)
    (d : Int) (c : Option String) (st' : AnalyzerState) (cf' : Option String)
    (d' : Int) (c' : Option String)
    (h : processLine fuel fs st fp all n s cf d c = .stepDone st' cf' d' c')
    (hinv : 0 ≤ d ∧ (c.isSome = true ↔ 0 < d)) :
    (0 ≤ d' ∧ (c'.isSome = true ↔ 0 < d')) ∧
    (∀ fn, detectFuncDef (pyStrip s) = some fn →
      detectConditionStart (pyStrip s) = none →
      detectConditionEnd (pyStrip s) = false →
      pyStrip s ≠ "" → csStarts ['#'] (pyStrip s).data = false →
      d' = 0 ∧ c' = none) := by
  obtain ⟨hd, hc⟩ := hinv
  unfold processLine processLineWith at h
  dsimp only at h
  split at h
  · rename_i hblank
    cases h
    refine ⟨⟨hd, hc⟩, ?_⟩
    intro fn _ _ _ hne hhash
    rcases hblank with hb | hb
    · exact absurd hb hne
    · rw [hhash] at hb
      cases hb
  · split at h
    · rename_i cs hcs
      cases h
      constructor
      · refine ⟨by omega, ?_⟩
        simp only [Option.isSome_some]
        constructor
        · intro
          omega
        · intro
          trivial
      · intro fn _ hcs2 _ _ _
        rw [hcs] at hcs2
        cases hcs2
    · rename_i hcs
      split at h
      · rename_i hend
        split at h
        · cases h
          refine ⟨⟨le_refl 0, by simp⟩, ?_⟩
          intro fn _ _ hend2 _ _
          rw [hend] at hend2
          cases hend2
        · rename_i hgt
          cases h
          constructor
          · refine ⟨by omega, ?_⟩
            constructor
            · intro
              omega
            · intro
              exact hc.mpr (by omega)
          · intro fn _ _ hend2 _ _
            rw [hend] at hend2
            cases hend2
      · split at h
        · rename_i fn0 hdef
          cases h
          exact ⟨⟨le_refl 0, by simp⟩, fun fn _ _ _ _ _ => ⟨rfl, rfl⟩⟩
        · rename_i hdef
          split at h
          · split at h
            · cases h
            · cases h
            · cases h
              refine ⟨⟨hd, hc⟩, ?_⟩
              intro fn hdef2 _ _ _ _
              rw [hdef] at hdef2
              cases hdef2
          · cases h
            refine ⟨⟨hd, hc⟩, ?_⟩
            intro fn hdef2 _ _ _ _
            rw [hdef] at hdef2
            cases hdef2

/-- Witness for C4: the `fi` step from depth 1 back to `(0, absent)`. -/
theorem c4_conditional_context_invariant_witness :
    ((0 : Int) ≤ 0 ∧ ((none : Option String).isSome = true ↔ (0 : Int) < 0)) ∧
    (∀ fn, detectFuncDef (pyStrip "fi") = some fn →
      detectConditionStart (pyStrip "fi") = none →
      detectConditionEnd (pyStrip "fi") = false →
      pyStrip "fi" ≠ "" → csStarts ['#'] (pyStrip "fi").data = false →
      (0 : Int) = 0 ∧ (none : Option String) = none) :=
  c4_conditional_context_invariant 1 [] initState "f" [] 1 "fi" none 1
    (some "if: x") initState none 0 none (by decide) (by decide)

/-- Claim C3 counterexample: the statement line `x ;;` contains `;;`
(after trimming), is non-blank and not a comment, yet is *not*
classified as a conditional-end — `re.match` anchors the `;;` pattern at
the start of the line — so the step leaves the depth at 1 instead of
decrementing it to 0 and clearing the label. -/
theorem c3_counterexample :
    "x ;;".data = ['x', ' '] ++ [';', ';'] ++ [] ∧
    pyStrip "x ;;" = "x ;;" ∧
    csStarts ['#'] "x ;;".data = false ∧
    detectConditionEnd "x ;;" = false ∧
    processLine 1 [] initState "f" [] 1 "x ;;" none 1 (some "case: v") =
      .stepDone initState none 1 (some "case: v") := by decide

/-- Claim C3 amended: a non-blank, non-comment line that *starts* with
`;;` after trimming (rather than merely containing it) and is not first
captured by a conditional-start pattern is classified as a
conditional-end: the depth is decremented with a floor at 0 and the
label cleared once the depth reaches 0. -/
theorem c3_amended (fuel : Nat) (fs : FileSystem) (st : AnalyzerState)
    (fp : String) (all : List String) (n : Nat) (s : String)
    (cf : Option String) (d : Int) (c : Option String)
    (hs : csStarts [';', ';'] (pyStrip s).data = true)
    (hcs : detectConditionStart (pyStrip s) = none) :
    detectConditionEnd (pyStrip s) = true ∧
    processLine fuel fs st fp all n s cf d c =
      (if d - 1 ≤ 0 then .stepDone st cf 0 none
       else .stepDone st cf (d - 1) c) := by
  have hend : detectConditionEnd (pyStrip s) = true := by
    unfold detectConditionEnd
    simp [hs]
  refine ⟨hend, ?_⟩
  have hshape : ∃ rest, (pyStrip s).data = ';' :: rest := by
    rcases hd2 : (pyStrip s).data with _ | ⟨ch, rest⟩
    · rw [hd2] at hs
      simp [csStarts] at hs
    · rw [hd2] at hs
      rcases rest with _ | ⟨ch2, rest2⟩
      · simp [csStarts] at hs
      · simp only [csStarts, List.take, decide_eq_true_eq, List.cons.injEq] at hs
        exact ⟨ch2 :: rest2, by rw [hs.1]⟩
  obtain ⟨rest, hrest⟩ := hshape
  have hne : pyStrip s ≠ "" := by
    intro he
    rw [he] at hrest
    cases hrest
  have hh : csStarts ['#'] (pyStrip s).data = false := by
    rw [hrest]
    simp [csStarts]
  unfold processLine processLineWith
  dsimp only
  rw [if_neg (by simp [hne, hh])]
  simp only [hcs]
  rw [if_pos hend]

/-- Witness for C3 amended: a bare `;;` branch terminator from depth 2
keeps the label, and from depth 1 clears it. -/
theorem c3_amended_witness :
    detectConditionEnd (pyStrip ";;") = true ∧
    processLine 1 [] initState "f" [] 1 ";;" none 2 (some "case: v") =
      (if (2 : Int) - 1 ≤ 0 then .stepDone initState none 0 none
       else .stepDone initState none (2 - 1) (some "case: v")) :=
  c3_amended 1 [] initState "f" [] 1 ";;" none 2 (some "case: v")
    (by decide) (by decide)

/-- Claim C6 counterexample: a path that passes the existence check but
whose first `open`/read raises something other than `UnicodeDecodeError`
(a file that vanished in between, a directory, a permission error)
escapes the engine as an exception — only `UnicodeDecodeError` is caught
around the first read — contradicting "the engine raises no
exception". -/
theorem c6_counterexample :
    analyzeFile 2 [("d", FileData.openRaises)] initState "d" = .raised := by
  decide

/-- Claim C6 amended: when no path's first open raises, the engine
raises no exception; and a file whose reads fail to decode (both
encodings) is silently skipped: the analysis returns normally with that
file marked visited and its registry and inclusion entries left empty,
so the overall traversal is not halted. -/
theorem c6_unreadable_skipped (fs : FileSystem) :
    ((∀ p, ¬ (p, FileData.openRaises) ∈ fs) →
      ∀ (fuel : Nat) (st : AnalyzerState) (p : String),
        analyzeFile fuel fs st p ≠ .raised) ∧
    (∀ (fuel : Nat) (st : AnalyzerState) (p : String),
      getKey fs p = some .unreadable → ¬ p ∈ st.analyzed_files →
      analyzeFile (fuel + 1) fs st p =
        .done ⟨setKey st.functions p [], setKey st.sources p [],
          p :: st.analyzed_files⟩) := by
  constructor
  · intro hfs fuel st p
    exact analyzeFile_noraise fs hfs fuel st p
  · intro fuel st p hread hp
    unfold analyzeFile
    rw [if_neg (by simp [hp, hread])]
    dsimp only
    simp only [hread]

/-- Witness for C6 amended, on a filesystem holding one undecodable
file. -/
theorem c6_unreadable_skipped_witness :
    analyzeFile 3 [("u", FileData.unreadable)] initState "u" ≠ .raised ∧
    analyzeFile 3 [("u", FileData.unreadable)] initState "u" =
      .done ⟨[("u", [])], [("u", [])], ["u"]⟩ :=
  ⟨(c6_unreadable_skipped [("u", FileData.unreadable)]).1
     (by intro p h; simp at h) 3 initState "u",
   (c6_unreadable_skipped [("u", FileData.unreadable)]).2 2 initState "u"
     (by decide) (by decide)⟩

theorem findCallsAux_calls_other (line cfn fp : String) (cond : Option String)
    (fp2 fn : String) (hfn : fn ≠ cfn) :
    ∀ (names : List String) (st : AnalyzerState),
    callsOf (findCallsAux line cfn fp cond names st) fp2 fn = callsOf st fp2 fn := by
  intro names
  induction names with
  | nil => intro st; rfl
  | cons F rest ih =>
    intro st
    unfold findCallsAux
    by_cases h1 : F ∈ system_commands
    · simp only [h1, if_true]
      exact ih st
    · simp only [h1, if_false]
      by_cases h2 : callMatch F line
      · simp only [h2, if_true]
        rw [ih]
        exact callsOf_appendCall_other st fp cfn _ fp2 fn (fun hx => hfn hx.2)
      · simp only [h2, if_false]
        exact ih st

/-- The C1 scenario: `foo`'s body ends on line 3, and line 4 holds a
top-level call site `foo 1`. -/
def c1FS : FileSystem := [("a.sh", .utf8 ["foo() \x7b", ":", "\x7d", "foo 1"])]

/-- Claim C1 counterexample: the call site `foo 1` on line 4 of `c1FS`
lies textually outside any function body (the body of `foo` is closed by
the `}` on line 3), yet the recorded CallEdge is attached under `foo`'s
own entry, and no `GLOBAL` pseudo-entry exists in the file's registry at
all — the enclosing-function tracker is never reset when a body ends. -/
theorem c1_counterexample :
    analyzeFile 2 c1FS initState "a.sh" =
      .done ⟨[("a.sh", [("foo", ⟨[], 1, [⟨"foo", "1", none⟩]⟩)])],
        [("a.sh", [])], ["a.sh"]⟩ := by decide

/-- Claim C1 amended: a CallEdge is attached under the `GLOBAL`
pseudo-entry only while no function-definition line has been seen in the
file (the enclosing tracker is `none`): in that case no named entry's
call list changes.  Once the tracker holds a function `f`, a
non-definition line never clears it, and every edge the step records
goes to `f`'s own entry — even when the call site is textually outside
`f`'s body. -/
theorem c1_global_attachment
    (fuel : Nat) (fs : FileSystem) (st : AnalyzerState) (fp : String)
    (all : List String) (n : Nat) (s : String) (cf : Option String)
    (d : Int) (c : Option String) (st' : AnalyzerState) (cf' : Option String)
    (d' : Int) (c' : Option String)
    (h : processLine fuel fs st fp all n s cf d c = .stepDone st' cf' d' c')
    (hdef : detectFuncDef (pyStrip s) = none)
    (hsrc : sourceMatch (pyStrip s) = none) :
    (cf = none → ∀ fp2 fn, fn ≠ "GLOBAL" →
      callsOf st' fp2 fn = callsOf st fp2 fn) ∧
    (∀ f, cf = some f → cf' = some f ∧
      ∀ fp2 fn, fn ≠ f → callsOf st' fp2 fn = callsOf st fp2 fn) := by
  unfold processLine processLineWith at h
  dsimp only at h
  split at h
  · cases h
    exact ⟨fun _ _ _ _ => rfl, fun f hf => ⟨hf, fun _ _ _ => rfl⟩⟩
  · split at h
    · cases h
      exact ⟨fun _ _ _ _ => rfl, fun f hf => ⟨hf, fun _ _ _ => rfl⟩⟩
    · split at h
      · split at h <;>
          (cases h;
           exact ⟨fun _ _ _ _ => rfl, fun f hf => ⟨hf, fun _ _ _ => rfl⟩⟩)
      · split at h
        · rename_i fn0 hdef2
          rw [hdef] at hdef2
          cases hdef2
        · split at h
          · rename_i tok hsrc2
            rw [hsrc] at hsrc2
            cases hsrc2
          · cases h
            constructor
            · intro hcf fp2 fn hfn
              subst hcf
              unfold findFunctionCalls
              exact findCallsAux_calls_other _ _ _ _ _ _ hfn _ _
            · intro f hf
              subst hf
              refine ⟨rfl, ?_⟩
              intro fp2 fn hfn
              unfold findFunctionCalls
              exact findCallsAux_calls_other _ _ _ _ _ _ hfn _ _

/-- Registry with `foo` defined and no calls yet. -/
def c1State : AnalyzerState :=
  ⟨[("a.sh", [("foo", ⟨[], 1, []⟩)])], [], ["a.sh"]⟩

/-- `c1State` after the edge from `foo 1` is appended to `foo`. -/
def c1State' : AnalyzerState :=
  ⟨[("a.sh", [("foo", ⟨[], 1, [⟨"foo", "1", none⟩]⟩)])], [], ["a.sh"]⟩

/-- Witness for C1 amended: scanning `foo 1` with enclosing function
`foo` keeps the tracker at `foo` and touches no other entry. -/
theorem c1_global_attachment_witness :
    ((some "foo" : Option String) = none → ∀ fp2 fn, fn ≠ "GLOBAL" →
      callsOf c1State' fp2 fn = callsOf c1State fp2 fn) ∧
    (∀ f, (some "foo" : Option String) = some f →
      (some "foo" : Option String) = some f ∧
      ∀ fp2 fn, fn ≠ f → callsOf c1State' fp2 fn = callsOf c1State fp2 fn) :=
  c1_global_attachment 1 [] c1State "a.sh" [] 4 "foo 1" (some "foo") 0 none
    c1State' (some "foo") 0 none (by decide) (by decide) (by decide)

/-- The C2 scenario: a definition of `lib` followed by an
inclusion-directive line that mentions `lib`. -/
def c2FS : FileSystem := [("a.sh", .utf8 ["lib() { :; }", "source lib.sh"])]

/-- Claim C2 counterexample: line 2 of `c2FS` is classified as an
inclusion directive — the edge to `lib.sh` is recorded in the inclusion
map — and yet a CallEdge with target `lib` is also produced from that
same line (line 1 is consumed by the function-definition match, so no
other line can have produced it): the inclusion branch lacks the
`continue` the other branches have, so the line falls through to the
Call Detector. -/
theorem c2_counterexample :
    analyzeFile 3 c2FS initState "a.sh" =
      .done ⟨[("a.sh", [("lib", ⟨[], 1, [⟨"lib", "", none⟩]⟩)])],
        [("a.sh", ["lib.sh"])], ["a.sh"]⟩ := by decide

/-- Claim C2 amended: conditional-start, conditional-end and
function-definition matches consume the line, but an inclusion-directive
match does not: after appending the resolved target to the inclusion map
(and recursing into it — here a no-op because the target is already
analyzed or does not exist), the very same line is handed to the Call
Detector, which can produce a CallEdge from it. -/
theorem c2_source_line_reaches_detector
    (fuel : Nat) (fs : FileSystem) (st : AnalyzerState) (fp : String)
    (all : List String) (n : Nat) (s : String) (cf : Option String)
    (d : Int) (c : Option String) (tok : String)
    (hne : pyStrip s ≠ "") (hh : csStarts ['#'] (pyStrip s).data = false)
    (h3 : detectConditionStart (pyStrip s) = none)
    (h4 : detectConditionEnd (pyStrip s) = false)
    (h5 : detectFuncDef (pyStrip s) = none)
    (h6 : sourceMatch (pyStrip s) = some tok)
    (h7 : resolvePath (stripQuotes tok) fp ∈ st.analyzed_files ∨
          getKey fs (resolvePath (stripQuotes tok) fp) = none) :
    processLine (fuel + 1) fs st fp all n s cf d c =
      .stepDone
        (findFunctionCalls (pyStrip s) (cf.getD "GLOBAL") fp c
          { st with sources := setKey st.sources fp ((getKey st.sources fp).getD [] ++ [resolvePath (stripQuotes tok) fp]) })
        cf d c := by
  unfold processLine processLineWith
  dsimp only
  rw [if_neg (by simp [hne, hh])]
  simp only [h3, h4, h5, h6]
  have hdone : analyzeFile (fuel + 1) fs
      { st with sources := setKey st.sources fp ((getKey st.sources fp).getD [] ++ [resolvePath (stripQuotes tok) fp]) }
      (resolvePath (stripQuotes tok) fp) =
      .done { st with sources := setKey st.sources fp ((getKey st.sources fp).getD [] ++ [resolvePath (stripQuotes tok) fp]) } := by
    unfold analyzeFile
    exact if_pos h7
  rw [hdone]
  rfl

/-- Registry with `lib` defined, for the C2 witness. -/
def c2State : AnalyzerState :=
  ⟨[("a.sh", [("lib", ⟨[], 1, []⟩)])], [("a.sh", [])], ["a.sh"]⟩

/-- Witness for C2 amended: scanning `source lib.sh` records the
inclusion edge and still runs the Call Detector on the line. -/
theorem c2_source_line_reaches_detector_witness :
    processLine 1 [] c2State "a.sh" [] 2 "source lib.sh" (some "lib") 0 none =
      .stepDone
        (findFunctionCalls (pyStrip "source lib.sh")
          ((some "lib" : Option String).getD "GLOBAL") "a.sh" none
          { c2State with sources := setKey c2State.sources "a.sh" ((getKey c2State.sources "a.sh").getD [] ++ [resolvePath (stripQuotes "lib.sh") "a.sh"]) })
        (some "lib") 0 none :=
  c2_source_line_reaches_detector 0 [] c2State "a.sh" [] 2 "source lib.sh"
    (some "lib") 0 none "lib.sh" (by decide) (by decide) (by decide)
    (by decide) (by decide) (by decide) (by decide)

/-- Bridge from the claim's reading — the name occurs as a standalone
word (split `pre ++ F ++ suf` with non-word neighbours) not followed,
modulo whitespace, by an opening parenthesis — to call pattern (a). -/
theorem matchSimpleWord_of_split (F line : String) (pre suf : List Char)
    (hsplit : line.data = pre ++ F.data ++ suf)
    (hpre : ∀ ch, pre.getLast? = some ch → isWordChar ch = false)
    (hsuf : ∀ ch, suf.head? = some ch → isWordChar ch = false)
    (hpar : (suf.dropWhile isSpaceChar).head? ≠ some '(') :
    matchSimpleWord F.data line.data = true := by
  unfold matchSimpleWord
  rw [List.any_eq_true]
  have hassoc : pre ++ F.data ++ suf = pre ++ (F.data ++ suf) :=
    List.append_assoc _ _ _
  have hdrop : line.data.drop pre.length = F.data ++ suf := by
    rw [hsplit, hassoc]
    exact List.drop_left _ _
  have htake : line.data.take pre.length = pre := by
    rw [hsplit, hassoc]
    exact List.take_left _ _
  have hdrop2 : line.data.drop (pre.length + F.data.length) = suf := by
    rw [hsplit]
    rw [show pre.length + F.data.length = (pre ++ F.data).length from
      (List.length_append _ _).symm]
    exact List.drop_left _ _
  refine ⟨pre.length, List.mem_range.mpr ?_, ?_⟩
  · rw [hsplit]
    simp only [List.length_append]
    omega
  · simp only [Bool.and_eq_true]
    refine ⟨⟨⟨?_, ?_⟩, ?_⟩, ?_⟩
    · unfold takeEq
      rw [hdrop]
      simp [List.take_left]
    · unfold lastNonWord
      rw [htake]
      rcases hl : pre.getLast? with _ | ch
      · rfl
      · simp [hpre ch hl]
    · unfold headNonWord
      rw [hdrop2]
      rcases hl : suf.head? with _ | ch
      · rfl
      · simp [hsuf ch hl]
    · unfold noParenLookahead
      rw [hdrop2]
      rcases hd : suf.dropWhile isSpaceChar with _ | ⟨ch, r⟩
      · rfl
      · have hch : ¬ ch = '(' := by
          intro he
          refine hpar ?_
          rw [hd, he]
          rfl
        simp [hch]

/-- Claim C10: the Call Detector never excludes the enclosing function
from the candidate targets.  If `F` is registered (in the scanned file),
not blocklisted, and the scanned line contains `F` as a standalone word
not followed (modulo whitespace) by an opening parenthesis — e.g. the
mere variable assignment `F=1` — then running the detector with `F` as
the enclosing function appends a CallEdge with target `F` to `F`'s own
entry: `F` is recorded as calling itself. -/
theorem c10_self_call (st : AnalyzerState) (fp F : String) (line : String)
    (cond : Option String) (m : FuncMap) (i : FuncInfo)
    (hm : getKey st.functions fp = some m) (hf : getKey m F = some i)
    (hsys : ¬ F ∈ system_commands)
    (pre suf : List Char)
    (hsplit : line.data = pre ++ F.data ++ suf)
    (hpre : ∀ ch, pre.getLast? = some ch → isWordChar ch = false)
    (hsuf : ∀ ch, suf.head? = some ch → isWordChar ch = false)
    (hpar : (suf.dropWhile isSpaceChar).head? ≠ some '(') :
    (⟨F, extract_call_args line F, cond⟩ : CallInfo) ∈
      callsOf (findFunctionCalls line F fp cond st) fp F := by
  unfold findFunctionCalls
  refine findCallsAux_hit line F fp cond F _ st ?_ hsys ?_ ?_
  · exact mem_allFunctionNames st.functions fp F m i hm hf
  · unfold callMatch
    rw [matchSimpleWord_of_split F line pre suf hsplit hpre hsuf hpar]
    rfl
  · right
    unfold funcEntry
    rw [hm]
    dsimp only
    rw [hf]
    rfl

/-- Registry with `foo` defined, for the C10 witness. -/
def c10State : AnalyzerState :=
  ⟨[("a.sh", [("foo", ⟨[], 1, []⟩)])], [], ["a.sh"]⟩

/-- Witness for C10: the assignment line `foo=1`, scanned while `foo` is
the enclosing function, records `foo` as calling itself. -/
theorem c10_self_call_witness :
    (⟨"foo", extract_call_args "foo=1" "foo", none⟩ : CallInfo) ∈
      callsOf (findFunctionCalls "foo=1" "foo" "a.sh" none c10State) "a.sh" "foo" :=
  c10_self_call c10State "a.sh" "foo" "foo=1" none [("foo", ⟨[], 1, []⟩)]
    ⟨[], 1, []⟩ (by decide) (by decide) (by decide) [] ['=', '1'] (by decide)
    (by intro ch h; cases h) (by intro ch h; cases h; decide) (by decide)

theorem processLinesWith_append (recur : AnalyzerState → String → AnalyzeResult)
    (fp : String) (all : List String) :
    ∀ (xs ys : List String) (st : AnalyzerState) (n : Nat) (cf : Option String)
      (d : Int) (c : Option String),
    processLinesWith recur fp all st (xs ++ ys) n cf d c =
      (match processLinesWith recur fp all st xs n cf d c with
       | .stepDone st2 cf2 d2 c2 =>
         processLinesWith recur fp all st2 ys (n + xs.length) cf2 d2 c2
       | r => r) := by
  intro xs
  induction xs with
  | nil =>
    intro ys st n cf d c
    simp [processLinesWith]
  | cons l xs' ih =>
    intro ys st n cf d c
    rw [List.cons_append]
    unfold processLinesWith
    cases hstep : processLineWith recur st fp all n l cf d c with
    | outOfFuel => rfl
    | raised => rfl
    | stepDone st2 cf2 d2 c2 =>
      dsimp only
      rw [ih ys st2 (n+1) cf2 d2 c2]
      have harith : n + 1 + xs'.length = n + (l :: xs').length := by
        simp [List.length_cons]
        omega
      rw [harith]
      cases processLinesWith recur fp all st2 xs' (n + 1) cf2 d2 c2 with
      | stepDone st3 cf3 d3 c3 => cases ys <;> rfl
      | outOfFuel => rfl
      | raised => rfl

theorem processLinesWith_plain_run (recur : AnalyzerState → String → AnalyzeResult)
    (fp : String) (all : List String) :
    ∀ (stmts : List String), (∀ s ∈ stmts, PlainStmt s) →
    ∀ (st : AnalyzerState) (n : Nat) (cf : Option String) (d : Int)
      (c : Option String),
    ∃ st', processLinesWith recur fp all st stmts n cf d c = .stepDone st' cf d c ∧
      ∀ fp2 fn x, x ∈ callsOf st' fp2 fn →
        x ∈ callsOf st fp2 fn ∨ x.condition = c := by
  intro stmts
  induction stmts with
  | nil =>
    intro _ st n cf d c
    exact ⟨st, rfl, fun _ _ _ hx => Or.inl hx⟩
  | cons s rest ih =>
    intro hall st n cf d c
    have hps := hall s (List.mem_cons_self s rest)
    have hrest : ∀ s' ∈ rest, PlainStmt s' :=
      fun s' hs' => hall s' (List.mem_cons_of_mem _ hs')
    obtain ⟨st', heq, hm2⟩ := ih hrest
      (findFunctionCalls (pyStrip s) (cf.getD "GLOBAL") fp c st) (n+1) cf d c
    refine ⟨st', ?_, ?_⟩
    · unfold processLinesWith
      rw [processLineWith_plain recur st fp all n s cf d c hps]
      exact heq
    · intro fp2 fn x hx
      rcases hm2 fp2 fn x hx with hx2 | hx2
      · unfold findFunctionCalls at hx2
        exact findCallsAux_calls_sub (pyStrip s) (cf.getD "GLOBAL") fp c x fp2 fn
          _ st hx2
      · exact Or.inr hx2

/-- The C8 scenario: a call to `foo` that lies textually between
`if cond` (line 4) and its matching `fi` (line 8), but inside the nested
`while x` … `done` region's aftermath. -/
def c8FS : FileSystem :=
  [("a.sh", .utf8 ["foo() \x7b", ":", "\x7d", "if cond", "while x", "done",
    "foo", "fi"])]

/-- Claim C8 counterexample: in `c8FS` the call site `foo` on line 7
lies textually between the `if cond` line and its matching `fi` (even
the analyzer's own depth counter closes the `if` exactly at that `fi`),
yet the recorded CallEdge carries the label `while: x` — the label of
the nested construct, which overwrote `if: cond` and was never restored
when the nested construct closed — not `if: cond`. -/
theorem c8_counterexample :
    analyzeFile 2 c8FS initState "a.sh" =
      .done ⟨[("a.sh", [("foo", ⟨[], 1, [⟨"foo", "", some "while: x"⟩]⟩)])],
        [("a.sh", [])], ["a.sh"]⟩ := by decide

/-- Claim C8 amended: when the region between the `if` line and its `fi`
consists only of plain statement lines (no nested conditional starts or
ends, no definitions, no inclusions), every CallEdge recorded there
carries the label `if: cond`, the `fi` returns the context to depth 0
with no label, and every CallEdge recorded on plain statement lines
after the `fi` carries no label. -/
theorem c8_if_label (recur : AnalyzerState → String → AnalyzeResult)
    (fp : String) (all : List String) (st : AnalyzerState) (n : Nat)
    (cf : Option String) (cond lif : String) (stmts1 stmts2 : List String)
    (htrim : pyStrip lif = lif) (hhash : csStarts ['#'] lif.data = false)
    (hif : detectConditionStart lif = some ("if: " ++ cond))
    (h1 : ∀ s ∈ stmts1, PlainStmt s) (h2 : ∀ s ∈ stmts2, PlainStmt s) :
    ∃ st1 st2,
      processLinesWith recur fp all st (lif :: stmts1) n cf 0 none =
        .stepDone st1 cf 1 (some ("if: " ++ cond)) ∧
      (∀ fp2 fn x, x ∈ callsOf st1 fp2 fn →
        x ∈ callsOf st fp2 fn ∨ x.condition = some ("if: " ++ cond)) ∧
      processLinesWith recur fp all st1 ("fi" :: stmts2)
          (n + (stmts1.length + 1)) cf 1 (some ("if: " ++ cond)) =
        .stepDone st2 cf 0 none ∧
      (∀ fp2 fn x, x ∈ callsOf st2 fp2 fn →
        x ∈ callsOf st1 fp2 fn ∨ x.condition = none) ∧
      processLinesWith recur fp all st ((lif :: stmts1) ++ ("fi" :: stmts2))
          n cf 0 none =
        .stepDone st2 cf 0 none := by
  have hne : lif ≠ "" := by
    intro he
    rw [he] at hif
    have hempty : detectConditionStart "" = none := by decide
    rw [hempty] at hif
    cases hif
  have hstep1 : processLineWith recur st fp all n lif cf 0 none =
      .stepDone st cf (0 + 1) (some ("if: " ++ cond)) := by
    unfold processLineWith
    dsimp only
    rw [htrim]
    rw [if_neg (by simp [hne, hhash])]
    simp only [hif]
  obtain ⟨st1, heq1, hmem1⟩ := processLinesWith_plain_run recur fp all stmts1 h1
    st (n + 1) cf (0 + 1) (some ("if: " ++ cond))
  have hrun1 : processLinesWith recur fp all st (lif :: stmts1) n cf 0 none =
      .stepDone st1 cf (0 + 1) (some ("if: " ++ cond)) := by
    unfold processLinesWith
    rw [hstep1]
    exact heq1
  have hstepfi : processLineWith recur st1 fp all (n + (stmts1.length + 1)) "fi"
      cf 1 (some ("if: " ++ cond)) = .stepDone st1 cf 0 none := rfl
  obtain ⟨st2, heq2, hmem2⟩ := processLinesWith_plain_run recur fp all stmts2 h2
    st1 (n + (stmts1.length + 1) + 1) cf 0 none
  have hrun2 : processLinesWith recur fp all st1 ("fi" :: stmts2)
      (n + (stmts1.length + 1)) cf 1 (some ("if: " ++ cond)) =
      .stepDone st2 cf 0 none := by
    unfold processLinesWith
    rw [hstepfi]
    exact heq2
  refine ⟨st1, st2, by simpa using hrun1, hmem1, hrun2, hmem2, ?_⟩
  rw [processLinesWith_append recur fp all (lif :: stmts1) ("fi" :: stmts2)
    st n cf 0 none]
  rw [hrun1]
  have harith : n + (lif :: stmts1).length = n + (stmts1.length + 1) := by
    simp [List.length_cons]
  rw [harith]
  exact hrun2

/-- Witness for the amended C8: with the `if cond` line followed by the
plain statement `foo 1`, then `fi`, then the plain statement `foo 2`,
the context enters depth 1 with label `if: cond`, every new edge from the
region carries that label, `fi` restores (0, none), and every new edge
after `fi` carries no label. -/
theorem c8_if_label_witness :
    ∃ st1 st2,
      processLinesWith (analyzeFile 1 c8FS) "a.sh" ["foo"] initState
          ("if cond" :: ["foo 1"]) 4 none 0 none =
        .stepDone st1 none 1 (some ("if: " ++ "cond")) ∧
      (∀ fp2 fn x, x ∈ callsOf st1 fp2 fn →
        x ∈ callsOf initState fp2 fn ∨ x.condition = some ("if: " ++ "cond")) ∧
      processLinesWith (analyzeFile 1 c8FS) "a.sh" ["foo"] st1 ("fi" :: ["foo 2"])
          (4 + ((["foo 1"] : List String).length + 1)) none 1
          (some ("if: " ++ "cond")) =
        .stepDone st2 none 0 none ∧
      (∀ fp2 fn x, x ∈ callsOf st2 fp2 fn →
        x ∈ callsOf st1 fp2 fn ∨ x.condition = none) ∧
      processLinesWith (analyzeFile 1 c8FS) "a.sh" ["foo"] initState
          (("if cond" :: ["foo 1"]) ++ ("fi" :: ["foo 2"])) 4 none 0 none =
        .stepDone st2 none 0 none :=
  c8_if_label (analyzeFile 1 c8FS) "a.sh" ["foo"] initState 4 none "cond"
    "if cond" ["foo 1"] ["foo 2"] (by decide) (by decide) (by decide)
    (by decide) (by decide)

/-- A completed `analyze_file` call leaves its path either marked analyzed
or nonexistent on the filesystem, so a repeat call on the resulting state
returns immediately. -/
theorem analyzeFile_visits (fuel : Nat) (fs : FileSystem) (st : AnalyzerState)
    (p : String) (st' : AnalyzerState)
    (h : analyzeFile (fuel + 1) fs st p = .done st') :
    p ∈ st'.analyzed_files ∨ getKey fs p = none := by
  have hS := processLinesWith_stepOk_of fs (analyzeFile fuel fs)
    (processLineWith_stepOk_of fs (analyzeFile fuel fs)
      (fun st p st' h => analyzeFile_stepOk fuel fs st p st' h))
  unfold analyzeFile at h
  split at h
  · rename_i hguard
    cases h
    exact hguard
  · dsimp only at h
    split at h
    · rename_i lines hread
      cases hr : processLinesWith (analyzeFile fuel fs) p lines
          ⟨setKey st.functions p [], setKey st.sources p [],
            p :: st.analyzed_files⟩ lines 1 none 0 none with
      | outOfFuel => rw [hr] at h; cases h
      | raised => rw [hr] at h; cases h
      | stepDone st2 cf2 d2 c2 =>
        rw [hr] at h
        cases h
        exact Or.inl ((hS _ p lines lines 1 none 0 none _ _ _ _ hr).1
          (List.mem_cons_self p _))
    · rename_i lines hread
      cases hr : processLinesWith (analyzeFile fuel fs) p lines
          ⟨setKey st.functions p [], setKey st.sources p [],
            p :: st.analyzed_files⟩ lines 1 none 0 none with
      | outOfFuel => rw [hr] at h; cases h
      | raised => rw [hr] at h; cases h
      | stepDone st2 cf2 d2 c2 =>
        rw [hr] at h
        cases h
        exact Or.inl ((hS _ p lines lines 1 none 0 none _ _ _ _ hr).1
          (List.mem_cons_self p _))
    · cases h
      exact Or.inl (List.mem_cons_self p _)
    · cases h
    · cases h
      exact Or.inl (List.mem_cons_self p _)

/-- Claim C9: the report is a deterministic function of the filesystem
contents (the model is a pure function, so equal inputs give equal line
sequences), and a second invocation of `generate_map` on the analyzer
state a first invocation produced returns the same state and the same
report lines: the repeated `analyze_file` finds the root already in
`analyzed_files` (or nonexistent) and returns immediately, and
`_build_map_tree` renders the unchanged state identically. -/
theorem c9_idempotent (fs : FileSystem) (st st1 : AnalyzerState)
    (root : String) (out : List String)
    (h : generate_map fs st root = .done st1 out) :
    generate_map fs st1 root = .done st1 out := by
  unfold generate_map at h ⊢
  cases hA : analyzeFile (fs.length + 1) fs st root with
  | outOfFuel => rw [hA] at h; cases h
  | raised => rw [hA] at h; cases h
  | done stDone =>
    rw [hA] at h
    cases h
    have hvis : root ∈ st1.analyzed_files ∨ getKey fs root = none :=
      analyzeFile_visits fs.length fs st root st1 hA
    have hA2 : analyzeFile (fs.length + 1) fs st1 root = .done st1 := by
      unfold analyzeFile
      rw [if_pos hvis]
    rw [hA2]

theorem leListChar_cons_iff (x y : Char) (xs ys : List Char) :
    leListChar (x :: xs) (y :: ys) = true ↔
      x < y ∨ (x = y ∧ leListChar xs ys = true) := by
  show (if x < y then true else if y < x then false else leListChar xs ys) = true ↔ _
  rcases lt_trichotomy x y with h | h | h
  · simp [h]
  · subst h
    simp [lt_irrefl]
  · have h1 : ¬ x < y := asymm h
    have h2 : x ≠ y := h.ne'
    simp [h1, h, h2]

theorem leListChar_total : ∀ a b : List Char,
    leListChar a b = true ∨ leListChar b a = true := by
  intro a
  induction a with
  | nil => intro b; left; rfl
  | cons x xs ih =>
    intro b
    cases b with
    | nil => right; rfl
    | cons y ys =>
      rcases lt_trichotomy x y with h | h | h
      · left; rw [leListChar_cons_iff]; exact Or.inl h
      · subst h
        rcases ih ys with h2 | h2
        · left; rw [leListChar_cons_iff]; exact Or.inr ⟨rfl, h2⟩
        · right; rw [leListChar_cons_iff]; exact Or.inr ⟨rfl, h2⟩
      · right; rw [leListChar_cons_iff]; exact Or.inl h

theorem leListChar_trans : ∀ a b c : List Char, leListChar a b = true →
    leListChar b c = true → leListChar a c = true := by
  intro a
  induction a with
  | nil => intro b c _ _; rfl
  | cons x xs ih =>
    intro b c h1 h2
    cases b with
    | nil => simp [leListChar] at h1
    | cons y ys =>
      cases c with
      | nil => simp [leListChar] at h2
      | cons z zs =>
        rw [leListChar_cons_iff] at h1 h2 ⊢
        rcases h1 with h1 | ⟨rfl, h1⟩
        · rcases h2 with h2 | ⟨rfl, h2⟩
          · exact Or.inl (h1.trans h2)
          · exact Or.inl h1
        · rcases h2 with h2 | ⟨rfl, h2⟩
          · exact Or.inl h2
          · exact Or.inr ⟨rfl, ih ys zs h1 h2⟩

theorem leListChar_antisymm : ∀ a b : List Char, leListChar a b = true →
    leListChar b a = true → a = b := by
  intro a
  induction a with
  | nil =>
    intro b h1 h2
    cases b with
    | nil => rfl
    | cons y ys => simp [leListChar] at h2
  | cons x xs ih =>
    intro b h1 h2
    cases b with
    | nil => simp [leListChar] at h1
    | cons y ys =>
      rw [leListChar_cons_iff] at h1 h2
      rcases h1 with h1 | ⟨rfl, h1⟩
      · rcases h2 with h2 | ⟨he, h2⟩
        · exact absurd h2 (asymm h1)
        · exact absurd h1 (by rw [he]; exact lt_irrefl x)
      · rcases h2 with h2 | ⟨he, h2⟩
        · exact absurd h2 (lt_irrefl x)
        · rw [ih ys h1 h2]

instance : IsTotal String strLe :=
  ⟨fun a b => leListChar_total a.data b.data⟩

instance : IsTrans String strLe :=
  ⟨fun a b c h1 h2 => leListChar_trans a.data b.data c.data h1 h2⟩

instance : IsAntisymm String strLe :=
  ⟨fun a b h1 h2 => by
    cases a with | mk la =>
    cases b with | mk lb =>
    exact congrArg String.mk (leListChar_antisymm la lb h1 h2)⟩

/-- Sorting the distinct elements only depends on which elements occur:
two lists with the same members have equal sorted deduplications. -/
theorem sortedDedupEq (l1 l2 : List String) (h : ∀ x, x ∈ l1 ↔ x ∈ l2) :
    strSort l1.dedup = strSort l2.dedup := by
  have hnd1 := List.nodup_dedup l1
  have hnd2 := List.nodup_dedup l2
  have hperm : l1.dedup.Perm l2.dedup := by
    rw [List.perm_ext_iff_of_nodup hnd1 hnd2]
    intro x
    simp [List.mem_dedup, h x]
  have hp2 : (strSort l1.dedup).Perm (strSort l2.dedup) :=
    ((List.perm_insertionSort strLe l1.dedup).trans hperm).trans
      (List.perm_insertionSort strLe l2.dedup).symm
  exact List.eq_of_perm_of_sorted hp2
    (List.sorted_insertionSort strLe l1.dedup)
    (List.sorted_insertionSort strLe l2.dedup)

/-- Witness for C9: a one-file filesystem; the first `generate_map` run
from the initial state yields the rendered report, and a second
invocation on the resulting state yields the identical state and lines. -/
theorem c9_idempotent_witness :
    generate_map [("a.sh", FileData.utf8 [":"])] initState "a.sh" =
      .done ⟨[("a.sh", [])], [("a.sh", [])], ["a.sh"]⟩ ["a.sh"] ∧
    generate_map [("a.sh", FileData.utf8 [":"])]
        ⟨[("a.sh", [])], [("a.sh", [])], ["a.sh"]⟩ "a.sh" =
      .done ⟨[("a.sh", [])], [("a.sh", [])], ["a.sh"]⟩ ["a.sh"] :=
  ⟨by decide,
   c9_idempotent [("a.sh", FileData.utf8 [":"])] initState
     ⟨[("a.sh", [])], [("a.sh", [])], ["a.sh"]⟩ "a.sh" ["a.sh"] (by decide)⟩

/-- Specification-side reading of the argument-extraction window (named
from the spec's words, for comparison with the source's
`extractArgsLoop`): the indices of the lines actually scanned — the scan
stops, excluding the current line, once past the definition line the
running brace balance returns to zero or below. -/
def specWindow (lines : List String) (d : Nat) : List Nat → Int → List Nat
  | [], _ => []
  | i :: rest, bc =>
    let line := pyStrip (lines.getD i "")
    let bc' := bc + (countChar line '{' : Int) - (countChar line '}' : Int)
    if d < i ∧ bc' ≤ 0 then []
    else i :: specWindow lines d rest bc'

/-- The scanned window of `_extract_args` for a definition on 1-based
line `func_line_num`: the definition line plus at most 50 subsequent
lines, cut short by the brace balance. -/
def specWindowIdxs (lines : List String) (func_line_num : Nat) : List Nat :=
  specWindow lines (func_line_num - 1)
    ((List.range (min (func_line_num + 50) lines.length)).drop (func_line_num - 1)) 0

/-- All positional-parameter markers found in the scanned window, with
multiplicity and in textual order. -/
def specPosMarkers (lines : List String) (func_line_num : Nat) : List String :=
  (specWindowIdxs lines func_line_num).flatMap
    fun i => posMarkers (pyStrip (lines.getD i "")).data

/-- Whether any line of the scanned window references a variadic marker. -/
def specHasVariadic (lines : List String) (func_line_num : Nat) : Bool :=
  (specWindowIdxs lines func_line_num).any
    fun i => hasVariadic (pyStrip (lines.getD i "")).data

/-- Specification-side reading of `_extract_args` (named from the spec's
words): the sorted union of the distinct positional markers of the
window plus a single variadic marker when any window line references
one. -/
def specExtractArgs (lines : List String) (func_line_num : Nat) : List String :=
  strSort ((specPosMarkers lines func_line_num) ++
    (if specHasVariadic lines func_line_num then ["$@"] else [])).dedup

/-- Membership in the result of the source's collection loop: an element
is either from the initial accumulator, a positional marker of a window
line, or the variadic marker contributed by some window line. -/
theorem extractArgsLoop_mem (lines : List String) (d : Nat) :
    ∀ (idxs : List Nat) (bc : Int) (acc : List String) (x : String),
    x ∈ extractArgsLoop lines d idxs bc acc ↔
      x ∈ acc ∨
      x ∈ (specWindow lines d idxs bc).flatMap
        (fun i => posMarkers (pyStrip (lines.getD i "")).data) ∨
      (x = "$@" ∧ (specWindow lines d idxs bc).any
        (fun i => hasVariadic (pyStrip (lines.getD i "")).data) = true) := by
  intro idxs
  induction idxs with
  | nil =>
    intro bc acc x
    simp [extractArgsLoop, specWindow]
  | cons i rest ih =>
    intro bc acc x
    unfold extractArgsLoop specWindow
    dsimp only
    by_cases hstop : d < i ∧
        bc + (countChar (pyStrip (lines.getD i "")) '{' : Int) -
          (countChar (pyStrip (lines.getD i "")) '}' : Int) ≤ 0
    · rw [if_pos hstop, if_pos hstop]
      simp
    · rw [if_neg hstop, if_neg hstop]
      by_cases hv : hasVariadic (pyStrip (lines.getD i "")).data = true
      · rw [if_pos hv, ih]
        simp only [List.flatMap_cons, List.any_cons, hv, Bool.true_or,
          List.mem_append, List.mem_singleton, and_true]
        tauto
      · rw [if_neg hv, ih]
        rw [Bool.not_eq_true] at hv
        simp only [List.flatMap_cons, List.any_cons, hv, Bool.false_or,
          List.mem_append]
        tauto

/-- Claim C7: the inferred argument list equals the spec's description —
the sorted union of the distinct positional markers found in the scan
window plus a single variadic marker whenever any window line references
one — and in particular a window whose positional markers are exactly
`$1` and `$2` with a variadic reference infers exactly
`["$1", "$2", "$@"]`. -/
theorem c7_args_sorted_union (lines : List String) (func_line_num : Nat) :
    extract_args lines func_line_num = specExtractArgs lines func_line_num ∧
    ((∀ x ∈ specPosMarkers lines func_line_num, x = "$1" ∨ x = "$2") →
     "$1" ∈ specPosMarkers lines func_line_num →
     "$2" ∈ specPosMarkers lines func_line_num →
     specHasVariadic lines func_line_num = true →
     extract_args lines func_line_num = ["$1", "$2", "$@"]) := by
  have hmain : extract_args lines func_line_num =
      specExtractArgs lines func_line_num := by
    unfold extract_args specExtractArgs
    dsimp only
    apply sortedDedupEq
    intro x
    rw [extractArgsLoop_mem]
    simp only [specPosMarkers, specWindowIdxs, specHasVariadic,
      List.mem_append, List.not_mem_nil, false_or]
    by_cases hv : ((specWindow lines (func_line_num - 1)
        ((List.range (min (func_line_num + 50) lines.length)).drop
          (func_line_num - 1)) 0).any
        (fun i => hasVariadic (pyStrip (lines.getD i "")).data)) = true
    · simp [hv]
      exact or_congr Iff.rfl and_comm
    · simp [hv]
      exact or_congr Iff.rfl and_comm
  refine ⟨hmain, ?_⟩
  intro h1 hm1 hm2 hvq
  rw [hmain]
  unfold specExtractArgs
  rw [if_pos hvq]
  have hx : ∀ x, x ∈ specPosMarkers lines func_line_num ++ ["$@"] ↔
      x ∈ ["$1", "$2", "$@"] := by
    intro x
    simp only [List.mem_append, List.mem_singleton, List.mem_cons,
      List.not_mem_nil, or_false]
    constructor
    · rintro (hx | rfl)
      · rcases h1 x hx with rfl | rfl
        · exact Or.inl rfl
        · exact Or.inr (Or.inl rfl)
      · exact Or.inr (Or.inr rfl)
    · rintro (rfl | rfl | rfl)
      · exact Or.inl hm1
      · exact Or.inl hm2
      · exact Or.inr rfl
  rw [sortedDedupEq _ _ hx]
  decide

/-- Witness for C7: the body of `foo` references `$1`, `$2` and `$@`;
the refinement equality holds and the inferred list is
`["$1", "$2", "$@"]`. -/
theorem c7_args_sorted_union_witness :
    extract_args ["foo() \x7b", "echo $1 $2", "echo $@", "\x7d"] 1 =
      specExtractArgs ["foo() \x7b", "echo $1 $2", "echo $@", "\x7d"] 1 ∧
    extract_args ["foo() \x7b", "echo $1 $2", "echo $@", "\x7d"] 1 =
      ["$1", "$2", "$@"] :=
  ⟨(c7_args_sorted_union ["foo() \x7b", "echo $1 $2", "echo $@", "\x7d"] 1).1,
   (c7_args_sorted_union ["foo() \x7b", "echo $1 $2", "echo $@", "\x7d"] 1).2
     (by decide) (by decide) (by decide) (by decide)⟩
